import Mathlib

/-!
Verification of the crypto utility module (`rtclite/app/sec/crypto.py`):
a shallow embedding of its minimal ASN.1 DER codec, the textbook RSA block
primitive, the RC4 stream cipher, and the sign/verify operations, together
with proofs and refutations of the specified properties.

Byte strings are modelled as `List Nat` (each entry a byte value).  Python
exceptions are modelled with `Except`.  The recursive DER decoder is given
explicit fuel (every Python run terminates because the offset strictly
increases; the fuel budget `length + 1` is shown sufficient where needed).
-/

/-- Errors raised by the DER codec (Python `ValueError` / `IndexError` /
`TypeError` sites, distinguished by raise site). -/
inductive DErr where
  /-- `IndexError`: `ord(value[off])` with `off` out of range. -/
  | truncated
  /-- `ValueError('ASN1 parsing only supports ...')` in `decode`. -/
  | unsupportedType
  /-- `ValueError` from `int('', 16)`: `bin2int` of an empty slice. -/
  | emptyInt
  /-- `ValueError('cannot parse ASN.1 at offset %d')`. -/
  | noProgress
  /-- `TypeError`: `_value` has the wrong Python type for the tag. -/
  | badValue
  /-- `ValueError('ASN1 formatting only supports integer and sequence')`. -/
  | unsupportedEncode
  /-- out of fuel (does not occur in any terminating Python run). -/
  | fuelOut
deriving DecidableEq, Repr

/-- `bin2int`: big-endian bytes to integer.  The source joins `%02x` hex pairs
and parses the result base 16, which is exactly a base-256 fold for bytes. -/
def bin2int (l : List Nat) : Nat := l.foldl (fun a b => a * 256 + b) 0

/-- The big-endian base-256 digits of `x` (no leading zero digit; empty for 0).
This is the `while x != 0: result = pack(x % 256) + result; x = x / 256` loop
of `int2bin`. -/
def natDigits (x : Nat) : List Nat :=
  if x = 0 then [] else natDigits (x / 256) ++ [x % 256]

/-- `int2bin(x, signByte)`: big-endian encoding of `x`; `[0]` for zero; when
`signByte` is set (the source's default, written explicitly at call sites
here), a `0x00` is prepended if the first byte is `>= 0x80`. -/
def int2bin (x : Nat) (signByte : Bool) : List Nat :=
  let result := natDigits x
  if result.length = 0 then [0]
  else if !signByte then result
  else if result.headD 0 < 0x80 then result else 0 :: result

/-- The decoded ASN.1 node: `_class`, `_type`, `_tag`, `_len` and `_value`,
where `_value` is either an integer (`intN`) or a list of children (`seqN`).
The freshly initialised Python node (`_type=0, _class=0, _tag=0, _len=0,
_value=[]`) is `seqN 0 0 0 0 []`. -/
inductive ASN1 : Type where
  | intN (cls typ tag len val : Nat) : ASN1
  | seqN (cls typ tag len : Nat) (children : List ASN1) : ASN1
deriving Repr

/-- `_class` field. -/
def ASN1.cls : ASN1 → Nat
  | .intN c _ _ _ _ => c
  | .seqN c _ _ _ _ => c

/-- `_type` field. -/
def ASN1.typ : ASN1 → Nat
  | .intN _ t _ _ _ => t
  | .seqN _ t _ _ _ => t

/-- `_tag` field. -/
def ASN1.tag : ASN1 → Nat
  | .intN _ _ g _ _ => g
  | .seqN _ _ g _ _ => g

/-- `_len` field. -/
def ASN1.lenF : ASN1 → Nat
  | .intN _ _ _ l _ => l
  | .seqN _ _ _ l _ => l

/-- Does `_value` hold an integer? -/
def ASN1.isInt : ASN1 → Bool
  | .intN _ _ _ _ _ => true
  | .seqN _ _ _ _ _ => false

/-- Does `_value` hold a list of children? -/
def ASN1.isSeq : ASN1 → Bool
  | .intN _ _ _ _ _ => false
  | .seqN _ _ _ _ _ => true

mutual
/-- Structural equality of decoded trees: same class, type, tag and value,
recursively; the derived `_len` metadata is ignored. -/
def ASN1.structEq : ASN1 → ASN1 → Bool
  | .intN c t g _ v, .intN c' t' g' _ v' =>
      c == c' && t == t' && g == g' && v == v'
  | .seqN c t g _ cs, .seqN c' t' g' _ cs' =>
      c == c' && t == t' && g == g' && ASN1.structEqList cs cs'
  | _, _ => false

/-- Pointwise `structEq` on child lists. -/
def ASN1.structEqList : List ASN1 → List ASN1 → Bool
  | [], [] => true
  | x :: xs, y :: ys => ASN1.structEq x y && ASN1.structEqList xs ys
  | _, _ => false
end

mutual
/-- Well-formed encodable tree: primitive INTEGER or constructed SEQUENCE
nodes only, with a class that fits the two class bits (`struct.pack('>B',...)`
in `_encodeType` rejects anything larger). -/
def ASN1.wfB : ASN1 → Bool
  | .intN c t g _ _ => t == 0 && g == 2 && decide (c < 4)
  | .seqN c t g _ cs => t == 1 && g == 16 && decide (c < 4) && ASN1.wfListB cs

/-- All members well formed. -/
def ASN1.wfListB : List ASN1 → Bool
  | [] => true
  | x :: xs => ASN1.wfB x && ASN1.wfListB xs
end

mutual
/-- In every SEQUENCE of the tree, only the last child may itself be a
SEQUENCE (the decoder parses children greedily to the end of the buffer, so
a SEQUENCE child swallows all following siblings). -/
def ASN1.tailOk : ASN1 → Bool
  | .intN _ _ _ _ _ => true
  | .seqN _ _ _ _ cs => ASN1.tailOkList cs

/-- `tailOk` for a child list: every non-final member is an INTEGER node. -/
def ASN1.tailOkList : List ASN1 → Bool
  | [] => true
  | [x] => ASN1.tailOk x
  | x :: xs => ASN1.isInt x && ASN1.tailOkList xs
end

mutual
/-- Fuel needed by `decodeAux` to decode this tree's encoding. -/
def ASN1.need : ASN1 → Nat
  | .intN _ _ _ _ _ => 1
  | .seqN _ _ _ _ cs => 1 + ASN1.needList cs

/-- Fuel needed by `decodeSeqAux` to decode this child list's encoding. -/
def ASN1.needList : List ASN1 → Nat
  | [] => 1
  | x :: xs => 1 + max (ASN1.need x) (ASN1.needList xs)
end

/-- Continuation-byte loop of `_decodeType`: while the current byte `v` has
its top bit set, fold its low 7 bits into `val` and fetch the next byte. -/
def ASN1.decodeTypeLoop (b : List Nat) (val v off : Nat) :
    Except DErr (Nat × Nat) :=
  if v &&& 0x80 ≠ 0 then
    match h : b[off]? with
    | none => .error .truncated
    | some v2 => ASN1.decodeTypeLoop b (val * 128 + (v &&& 0x7f)) v2 (off + 1)
  else .ok (val, off)
termination_by b.length - off
decreasing_by
  have : off < b.length := by
    by_contra hc
    rw [List.getElem?_eq_none (by omega)] at h
    exact absurd h (by simp)
  omega

/-- `_decodeType(value, off)`: returns `(class, type, tag, newOff)`. -/
def ASN1.decodeType (b : List Nat) (off : Nat) :
    Except DErr (Nat × Nat × Nat × Nat) :=
  match b[off]? with
  | none => .error .truncated
  | some v =>
    let c := (v &&& 0xc0) >>> 6
    let t := (v &&& 0x20) >>> 5
    let low := v &&& 0x1f
    if low < 0x1f then .ok (c, t, low, off + 1)
    else
      match b[off + 1]? with
      | none => .error .truncated
      | some v2 =>
        match ASN1.decodeTypeLoop b low v2 (off + 2) with
        | .error e => .error e
        | .ok (tag, off') => .ok (c, t, tag, off')

/-- `_decodeLen(value, off)`: returns `(len, newOff)`.  In the long form the
slice is clamped like a Python slice; an empty slice makes `bin2int` fail. -/
def ASN1.decodeLen (b : List Nat) (off : Nat) : Except DErr (Nat × Nat) :=
  match b[off]? with
  | none => .error .truncated
  | some v =>
    if v &&& 0x80 = 0 then .ok (v &&& 0x7f, off + 1)
    else
      let llen := v &&& 0x7f
      let s := (b.drop (off + 1)).take llen
      if s.isEmpty then .error .emptyInt
      else .ok (bin2int s, off + 1 + llen)

mutual
/-- `ASN1.decode(value, off)` with fuel: decode a single node.  An empty
buffer yields the freshly initialised node unchanged.  A constructed
SEQUENCE decodes children `while off < len(value)` — to the end of the
whole buffer, not of its declared-length window. -/
def ASN1.decodeAux : Nat → List Nat → Nat → Except DErr (ASN1 × Nat)
  | 0, _, _ => .error .fuelOut
  | fuel + 1, b, off =>
    if b.isEmpty then .ok (.seqN 0 0 0 0 [], off)
    else
      match ASN1.decodeType b off with
      | .error e => .error e
      | .ok (c, t, g, off1) =>
        match ASN1.decodeLen b off1 with
        | .error e => .error e
        | .ok (len, off2) =>
          if t = 0 then
            if g = 2 then
              let s := (b.drop off2).take len
              if s.isEmpty then .error .emptyInt
              else if off2 + len = off then .error .noProgress
              else .ok (.intN c t g len (bin2int s), off2 + len)
            else .error .unsupportedType
          else
            if g = 16 then
              match ASN1.decodeSeqAux fuel b off2 [] with
              | .error e => .error e
              | .ok (cs, off3) =>
                if off3 = off then .error .noProgress
                else .ok (.seqN c t g len cs, off3)
            else .error .unsupportedType

/-- The `while off < len(value)` child loop of the SEQUENCE branch. -/
def ASN1.decodeSeqAux : Nat → List Nat → Nat → List ASN1 →
    Except DErr (List ASN1 × Nat)
  | 0, _, _, _ => .error .fuelOut
  | fuel + 1, b, off, acc =>
    if off < b.length then
      match ASN1.decodeAux fuel b off with
      | .error e => .error e
      | .ok (child, off') => ASN1.decodeSeqAux fuel b off' (acc ++ [child])
    else .ok (acc, off)
end

/-- `ASN1.decode`: the decoder with its sufficient fuel budget. -/
def ASN1.decode (b : List Nat) (off : Nat) : Except DErr (ASN1 × Nat) :=
  ASN1.decodeAux (b.length + 1) b off

/-- Continuation loop of `_encodeType`: each freshly packed byte is prepended
to the accumulated result (so the bytes end up *before* the leading tag
byte, exactly as the source does it). -/
def ASN1.encodeTypeLoop (tag : Nat) (acc : List Nat) : List Nat :=
  if tag = 0 then acc
  else
    ASN1.encodeTypeLoop (tag / 128)
      ((if tag < 0x80 then tag else 0x80 ||| (tag % 128)) :: acc)
termination_by tag
decreasing_by exact Nat.div_lt_self (by omega) (by omega)

/-- `_encodeType(asn)` on the three header fields. -/
def ASN1.encodeType (c t g : Nat) : List Nat :=
  let first := (c <<< 6) ||| (t <<< 5)
  if g < 0x1f then [first ||| g]
  else ASN1.encodeTypeLoop g [first ||| 0x1f]

/-- `_encodeLen(data)`: short form below 128, long form otherwise. -/
def ASN1.encodeLen (data : List Nat) : List Nat :=
  let size := data.length
  if size < 0x80 then [size]
  else
    let sstr := int2bin size false
    (0x80 ||| sstr.length) :: sstr

mutual
/-- `ASN1.encode(asn)`: dispatches on `_type`/`_tag`; a node whose `_value`
has the wrong shape for its tag raises (Python `TypeError` from `int2bin` of
a list, or from iterating over an integer). -/
def ASN1.encode : ASN1 → Except DErr (List Nat)
  | .intN c t g _ v =>
    if t = 0 ∧ g = 2 then
      .ok (ASN1.encodeType c t g ++ ASN1.encodeLen (int2bin v true) ++
        int2bin v true)
    else if t = 1 ∧ g = 16 then .error .badValue
    else .error .unsupportedEncode
  | .seqN c t g _ cs =>
    if t = 0 ∧ g = 2 then .error .badValue
    else if t = 1 ∧ g = 16 then
      match ASN1.encodeList cs with
      | .error e => .error e
      | .ok val => .ok (ASN1.encodeType c t g ++ ASN1.encodeLen val ++ val)
    else .error .unsupportedEncode

/-- `''.join(ASN1.encode(x) for x in children)`, first error wins. -/
def ASN1.encodeList : List ASN1 → Except DErr (List Nat)
  | [] => .ok []
  | x :: xs =>
    match ASN1.encode x with
    | .error e => .error e
    | .ok v =>
      match ASN1.encodeList xs with
      | .error e => .error e
      | .ok vs => .ok (v ++ vs)
end

/-!  ## RSA primitive, keys, sign/verify  -/

/-- Errors of the `rsa` generator. -/
inductive RErr where
  /-- `ValueError('length of data is more than modulus bits')`. -/
  | blockTooLarge
  /-- `StopIteration`: `next()` on the generator with empty data. -/
  | stopIteration
deriving DecidableEq, Repr

/-- `(exp, o, inb)` chosen by `rsa`: with a falsy `d` (absent or zero) the
encryption direction, otherwise the decryption direction with `exp = d`. -/
def rsaParams (e : Nat) (d : Option Nat) (bits : Nat) : Nat × Nat × Nat :=
  match d with
  | none => (e, bits / 8, bits / 8 - 1)
  | some dv => if dv = 0 then (e, bits / 8, bits / 8 - 1)
               else (dv, bits / 8 - 1, bits / 8)

/-- `reduce(lambda x,y: (x<<8)+y, bytes)`: fold the chunk into a big-endian
integer (the fold from 0 agrees with Python's no-initializer reduce on a
non-empty list). -/
def beVal (data : List Nat) : Nat := data.foldl (fun x y => (x <<< 8) + y) 0

/-- `chr(b>>8*i&255) for i in range(o-1,-1,-1)`: re-emit `v` as exactly `o`
big-endian bytes. -/
def toBytesBE (o v : Nat) : List Nat :=
  (List.range o).reverse.map (fun i => (v >>> (8 * i)) &&& 255)

/-- One chunk of the `rsa(data, n, e, d, bits)` generator: the per-block raw
modular-exponentiation transform. -/
def rsa (data : List Nat) (n : Nat) (e : Nat) (d : Option Nat) (bits : Nat) :
    Except RErr (List Nat) :=
  let p := rsaParams e d bits
  if data.isEmpty then .error .stopIteration
  else if p.2.2 < data.length then .error .blockTooLarge
  else .ok (toBytesBE p.2.1 (beVal data ^ p.1 % n))

/-- RSA private key: the integer fields used by the core plus the DER bytes
an external `dump_privatekey(FILETYPE_ASN1, _data)` would produce. -/
structure PrivateKey where
  n : Nat
  e : Nat
  d : Nat
  bits : Nat
  derBytes : Option (List Nat)

/-- RSA public key: `_data` may hold a (truncated) decoded DER tree. -/
structure PublicKey where
  n : Nat
  e : Nat
  bits : Nat
  data : Option ASN1

/-- `extractPublicKey(Ks)`: copy `n`, `e`, `_bits`; when backing data exists,
decode its DER dump, set `_len` to 3 and truncate `_value` to the first
three children. -/
def extractPublicKey (Ks : PrivateKey) : Except DErr PublicKey :=
  match Ks.derBytes with
  | none => .ok ⟨Ks.n, Ks.e, Ks.bits, none⟩
  | some bytes =>
    match ASN1.decode bytes 0 with
    | .error e => .error e
    | .ok (asn, _) =>
      match asn with
      | .seqN c t g _ cs => .ok ⟨Ks.n, Ks.e, Ks.bits, some (.seqN c t g 3 (cs.take 3))⟩
      | .intN _ _ _ _ _ => .error .badValue

/-- `sign(Ks, hash)`: the primitive with `d` present at `bits = _bits + 8`
(the unused keyword default `e=0x10001` is passed along unchanged). -/
def sign (Ks : PrivateKey) (h : List Nat) : Except RErr (List Nat) :=
  rsa h Ks.n 0x10001 (some Ks.d) (Ks.bits + 8)

/-- `verify(Kp, hash, signature)`: the primitive with `e` at
`bits = _bits + 8`, then compare `bin2int` values. -/
def verify (Kp : PublicKey) (h sig : List Nat) : Except RErr Bool :=
  match rsa sig Kp.n Kp.e none (Kp.bits + 8) with
  | .error e => .error e
  | .ok out => .ok (bin2int out == bin2int h)

/-!  ## RC4 (`arc4`)  -/

/-- Value of one hex digit, as `atoi(-, 16)` reads it. -/
def hexDigit (c : Char) : Nat :=
  if '0' ≤ c ∧ c ≤ '9' then c.toNat - 48
  else if 'a' ≤ c ∧ c ≤ 'f' then c.toNat - 87
  else if 'A' ≤ c ∧ c ≤ 'F' then c.toNat - 55
  else 0

/-- Is the character a hexadecimal digit (the inputs `atoi` accepts here)? -/
def isHexChar (c : Char) : Bool :=
  ('0' ≤ c && c ≤ '9') || ('a' ≤ c && c ≤ 'f') || ('A' ≤ c && c ≤ 'F')

/-- `[atoi(a[b:b+2], 16) for b in range(0, len(a), 2)]`: successive pairs of
hex digits (a trailing odd digit is read alone, as the Python slice is). -/
def hexPairs : List Char → List Nat
  | c1 :: c2 :: rest => (16 * hexDigit c1 + hexDigit c2) :: hexPairs rest
  | [c1] => [hexDigit c1]
  | [] => []

/-- `(key * 256)[:256]`: the key bytes repeated to fill 256 entries. -/
def rc4key (key : String) : List Nat :=
  ((List.replicate 256 (hexPairs key.data)).flatten).take 256

/-- `t[i], t[j] = t[j], t[i]`. -/
def swapL (t : List Nat) (i j : Nat) : List Nat :=
  (t.set i (t.getD j 0)).set j (t.getD i 0)

/-- One key-scheduling step: `j = (k[i]+t[i]+j) % 256` then swap. -/
def ksaStep (k : List Nat) (st : List Nat × Nat) (i : Nat) : List Nat × Nat :=
  let j := (k.getD i 0 + st.1.getD i 0 + st.2) % 256
  (swapL st.1 i j, j)

/-- The key-scheduling loop `for i in t[:]` over the identity table. -/
def ksa (k : List Nat) : List Nat :=
  ((List.range 256).foldl (ksaStep k) (List.range 256, 0)).1

/-- The keystream/transform loop: for each input byte, step `x`, `y`, swap,
and XOR the byte with `t[(t[x]+t[y]) % 256]`. -/
def prga (t : List Nat) (x y : Nat) : List Nat → List Nat
  | [] => []
  | c :: rest =>
    let x' := (x + 1) % 256
    let y' := (y + t.getD x' 0) % 256
    let t' := swapL t x' y'
    (c ^^^ t'.getD ((t'.getD x' 0 + t'.getD y' 0) % 256) 0) :: prga t' x' y' rest

/-- `arc4(data, key).next()`: key a fresh engine, then take the generator's
first chunk.  The body is guarded by `while data:`, so for an empty
plaintext the generator ends without yielding and the first `next()`
raises `StopIteration`. -/
def arc4 (data : List Nat) (key : String) : Except RErr (List Nat) :=
  if data.isEmpty then .error .stopIteration
  else .ok (prga (ksa (rc4key key)) 0 0 data)

/-!  ## Arithmetic facts about `bin2int`, `natDigits`, `int2bin`  -/

theorem bin2int_foldl (init : Nat) (l : List Nat) :
    l.foldl (fun a b => a * 256 + b) init = init * 256 ^ l.length + bin2int l := by
  induction l generalizing init with
  | nil => simp [bin2int]
  | cons a l ih =>
    show l.foldl _ (init * 256 + a) = _
    rw [ih (init * 256 + a)]
    have : bin2int (a :: l) = (l.foldl (fun a b => a * 256 + b) a) := by
      simp [bin2int]
    rw [this, ih a]
    simp [List.length_cons]
    ring

theorem bin2int_cons (a : Nat) (l : List Nat) :
    bin2int (a :: l) = a * 256 ^ l.length + bin2int l := by
  have : bin2int (a :: l) = l.foldl (fun a b => a * 256 + b) a := by
    simp [bin2int]
  rw [this, bin2int_foldl a l]

theorem bin2int_append (l1 l2 : List Nat) :
    bin2int (l1 ++ l2) = bin2int l1 * 256 ^ l2.length + bin2int l2 := by
  unfold bin2int
  rw [List.foldl_append]
  exact bin2int_foldl _ l2

theorem bin2int_singleton (a : Nat) : bin2int [a] = a := by
  simp [bin2int]

theorem bin2int_zero_cons (l : List Nat) : bin2int (0 :: l) = bin2int l := by
  rw [bin2int_cons]; simp

theorem bin2int_lt (l : List Nat) (h : ∀ x ∈ l, x < 256) :
    bin2int l < 256 ^ l.length := by
  induction l with
  | nil => simp [bin2int]
  | cons a l ih =>
    rw [bin2int_cons]
    have ha : a < 256 := h a (by simp)
    have hl : bin2int l < 256 ^ l.length := ih (fun x hx => h x (by simp [hx]))
    calc a * 256 ^ l.length + bin2int l
        < a * 256 ^ l.length + 256 ^ l.length := Nat.add_lt_add_left hl _
      _ = (a + 1) * 256 ^ l.length := by ring
      _ ≤ 256 * 256 ^ l.length := Nat.mul_le_mul_right _ (by omega)
      _ = 256 ^ (a :: l).length := by simp [List.length_cons]; ring

theorem natDigits_zero : natDigits 0 = [] := by
  rw [natDigits]; simp

theorem natDigits_succ (n : Nat) (h : n ≠ 0) :
    natDigits n = natDigits (n / 256) ++ [n % 256] := by
  rw [natDigits]; simp [h]

theorem bin2int_natDigits (n : Nat) : bin2int (natDigits n) = n := by
  induction n using Nat.strong_induction_on with
  | _ n ih =>
    by_cases h : n = 0
    · subst h; rw [natDigits_zero]; simp [bin2int]
    · rw [natDigits_succ n h, bin2int_append, bin2int_singleton]
      rw [ih (n / 256) (Nat.div_lt_self (by omega) (by omega))]
      simp
      omega

theorem natDigits_ne_nil (n : Nat) (h : n ≠ 0) : natDigits n ≠ [] := by
  rw [natDigits_succ n h]
  simp

theorem natDigits_len_le (k : Nat) : ∀ n : Nat, n < 256 ^ k →
    (natDigits n).length ≤ k := by
  induction k with
  | zero =>
    intro n hn
    have : n = 0 := by simpa using hn
    simp [this, natDigits_zero]
  | succ k ih =>
    intro n hn
    by_cases h : n = 0
    · simp [h, natDigits_zero]
    · rw [natDigits_succ n h]
      have : n / 256 < 256 ^ k := by
        rw [Nat.div_lt_iff_lt_mul (by omega)]
        calc n < 256 ^ (k + 1) := hn
          _ = 256 ^ k * 256 := by ring
      simpa using Nat.succ_le_succ (ih (n / 256) this)

theorem natDigits_bytes (n : Nat) : ∀ x ∈ natDigits n, x < 256 := by
  induction n using Nat.strong_induction_on with
  | _ n ih =>
    by_cases h : n = 0
    · simp [h, natDigits_zero]
    · rw [natDigits_succ n h]
      intro x hx
      rcases List.mem_append.mp hx with h1 | h2
      · exact ih (n / 256) (Nat.div_lt_self (by omega) (by omega)) x h1
      · simp at h2; omega

theorem int2bin_false_eq (n : Nat) (h : n ≠ 0) : int2bin n false = natDigits n := by
  unfold int2bin
  simp [List.length_eq_zero, natDigits_ne_nil n h]

theorem int2bin_true_eq (n : Nat) (h : n ≠ 0) :
    int2bin n true =
      if 128 ≤ (natDigits n).headD 0 then 0 :: natDigits n else natDigits n := by
  unfold int2bin
  simp [List.length_eq_zero, natDigits_ne_nil n h]
  split
  · next hlt => rw [if_neg (by omega)]
  · next hlt => rw [if_pos (by omega)]

theorem int2bin_zero (s : Bool) : int2bin 0 s = [0] := by
  unfold int2bin
  simp [natDigits_zero]

theorem bin2int_int2bin (n : Nat) : bin2int (int2bin n true) = n := by
  by_cases h : n = 0
  · simp [h, int2bin_zero, bin2int_singleton]
  · rw [int2bin_true_eq n h]
    split
    · rw [bin2int_zero_cons, bin2int_natDigits]
    · rw [bin2int_natDigits]

theorem int2bin_ne_nil (n : Nat) (s : Bool) : int2bin n s ≠ [] := by
  by_cases h : n = 0
  · simp [h, int2bin_zero]
  · have h' : natDigits n ≠ [] := natDigits_ne_nil n h
    cases s
    · rw [int2bin_false_eq n h]; exact h'
    · rw [int2bin_true_eq n h]; split <;> simp [h']

theorem int2bin_len_le (n : Nat) :
    (int2bin n true).length ≤ (natDigits n).length + 1 := by
  by_cases h : n = 0
  · simp [h, int2bin_zero, natDigits_zero]
  · rw [int2bin_true_eq n h]
    split <;> simp

/-!  ## Byte-level facts (verified over all byte values)  -/

theorem byte_low7 : ∀ v < 128, v &&& 0x80 = 0 ∧ v &&& 0x7f = v := by decide

theorem byte_high7 : ∀ l < 128, (0x80 ||| l) &&& 0x80 ≠ 0 ∧
    (0x80 ||| l) &&& 0x7f = l := by decide

theorem header_int_byte : ∀ c < 4, ((64 * c + 2) &&& 0xc0) >>> 6 = c ∧
    ((64 * c + 2) &&& 0x20) >>> 5 = 0 ∧ (64 * c + 2) &&& 0x1f = 2 := by decide

theorem header_seq_byte : ∀ c < 4, ((64 * c + 48) &&& 0xc0) >>> 6 = c ∧
    ((64 * c + 48) &&& 0x20) >>> 5 = 1 ∧ (64 * c + 48) &&& 0x1f = 16 := by decide

theorem encodeType_int_byte : ∀ c < 4,
    ((c <<< 6) ||| (0 <<< 5)) ||| 2 = 64 * c + 2 := by decide

theorem encodeType_seq_byte : ∀ c < 4,
    ((c <<< 6) ||| (1 <<< 5)) ||| 16 = 64 * c + 48 := by decide

/-!  ## Positioned parsing lemmas for the DER codec  -/

theorem getElem?_of_drop (b : List Nat) (off : Nat) (l : List Nat)
    (h : b.drop off = l) (i : Nat) : b[off + i]? = l[i]? := by
  rw [← List.getElem?_drop, h]

theorem drop_of_drop_eq (b : List Nat) (off : Nat) (l : List Nat)
    (h : b.drop off = l) (k : Nat) : b.drop (off + k) = l.drop k := by
  rw [← List.drop_drop, h]

theorem length_of_drop_eq (b : List Nat) (off : Nat) (l : List Nat)
    (h : b.drop off = l) (hne : l ≠ []) :
    off + l.length = b.length ∧ off < b.length := by
  have hlen : (b.drop off).length = l.length := by rw [h]
  rw [List.length_drop] at hlen
  have hlt : off < b.length := by
    by_contra hc
    have hnil : b.drop off = [] := List.drop_eq_nil_iff.mpr (by omega)
    rw [hnil] at h
    exact hne h.symm
  exact ⟨by omega, hlt⟩

theorem decodeType_int_at (b : List Nat) (off c : Nat) (rest : List Nat)
    (hc : c < 4) (h : b.drop off = (64 * c + 2) :: rest) :
    ASN1.decodeType b off = .ok (c, 0, 2, off + 1) := by
  have hb : b[off]? = some (64 * c + 2) := by
    simpa using getElem?_of_drop b off _ h 0
  obtain ⟨h1, h2, h3⟩ := header_int_byte c hc
  simp [ASN1.decodeType, hb, h1, h2, h3]

theorem decodeType_seq_at (b : List Nat) (off c : Nat) (rest : List Nat)
    (hc : c < 4) (h : b.drop off = (64 * c + 48) :: rest) :
    ASN1.decodeType b off = .ok (c, 1, 16, off + 1) := by
  have hb : b[off]? = some (64 * c + 48) := by
    simpa using getElem?_of_drop b off _ h 0
  obtain ⟨h1, h2, h3⟩ := header_seq_byte c hc
  simp [ASN1.decodeType, hb, h1, h2, h3]

theorem encodeLen_short (val : List Nat) (h : val.length < 128) :
    ASN1.encodeLen val = [val.length] := by
  unfold ASN1.encodeLen
  rw [if_pos (by omega)]

theorem encodeLen_long (val : List Nat) (h : 128 ≤ val.length) :
    ASN1.encodeLen val =
      (0x80 ||| (natDigits val.length).length) :: natDigits val.length := by
  unfold ASN1.encodeLen
  rw [if_neg (by omega), int2bin_false_eq _ (by omega)]

theorem decodeLen_at (b : List Nat) (off : Nat) (val rest : List Nat)
    (hB : val.length < 256 ^ 127)
    (h : b.drop off = ASN1.encodeLen val ++ (val ++ rest)) :
    ASN1.decodeLen b off =
      .ok (val.length, off + (ASN1.encodeLen val).length) := by
  by_cases hs : val.length < 128
  · rw [encodeLen_short val hs] at h ⊢
    have hb : b[off]? = some val.length := by
      simpa using getElem?_of_drop b off _ h 0
    obtain ⟨h1, h2⟩ := byte_low7 val.length hs
    simp [ASN1.decodeLen, hb, h1, h2]
  · have hlong := encodeLen_long val (by omega)
    rw [hlong] at h ⊢
    have hllen : (natDigits val.length).length < 128 := by
      have := natDigits_len_le 127 val.length hB
      omega
    have hb : b[off]? = some (0x80 ||| (natDigits val.length).length) := by
      simpa using getElem?_of_drop b off _ h 0
    obtain ⟨h1, h2⟩ := byte_high7 (natDigits val.length).length hllen
    have hdrop1 : b.drop (off + 1) = natDigits val.length ++ (val ++ rest) := by
      simpa using drop_of_drop_eq b off _ h 1
    have hsne : natDigits val.length ≠ [] :=
      natDigits_ne_nil val.length (by omega)
    have htake : ((b.drop (off + 1)).take (natDigits val.length).length) =
        natDigits val.length := by
      rw [hdrop1]
      exact List.take_left (natDigits val.length) (val ++ rest)
    simp only [ASN1.decodeLen, hb, h2, htake]
    rw [if_neg h1]
    rw [if_neg (by simpa [List.isEmpty_iff] using hsne)]
    rw [bin2int_natDigits]
    simp [List.length_cons]
    omega

theorem encodeType_int_eq (c : Nat) (hc : c < 4) :
    ASN1.encodeType c 0 2 = [64 * c + 2] := by
  unfold ASN1.encodeType
  rw [if_pos (by omega)]
  rw [encodeType_int_byte c hc]

theorem encodeType_seq_eq (c : Nat) (hc : c < 4) :
    ASN1.encodeType c 1 16 = [64 * c + 48] := by
  unfold ASN1.encodeType
  rw [if_pos (by omega)]
  rw [encodeType_seq_byte c hc]

theorem encode_int_eq (c l v : Nat) (hc : c < 4) :
    ASN1.encode (.intN c 0 2 l v) =
      .ok ((64 * c + 2) ::
        (ASN1.encodeLen (int2bin v true) ++ int2bin v true)) := by
  rw [ASN1.encode]
  rw [if_pos ⟨rfl, rfl⟩, encodeType_int_eq c hc]
  simp

theorem encode_seq_eq (c l : Nat) (cs : List ASN1) (val : List Nat)
    (hc : c < 4) (h : ASN1.encodeList cs = .ok val) :
    ASN1.encode (.seqN c 1 16 l cs) =
      .ok ((64 * c + 48) :: (ASN1.encodeLen val ++ val)) := by
  rw [ASN1.encode]
  rw [if_neg (by omega), if_pos ⟨rfl, rfl⟩, h, encodeType_seq_eq c hc]
  simp

/-!  ## Round-trip machinery  -/

theorem encodeLen_len_pos (val : List Nat) : 1 ≤ (ASN1.encodeLen val).length := by
  by_cases h : val.length < 128
  · rw [encodeLen_short val h]; simp
  · rw [encodeLen_long val (by omega)]; simp

theorem encodeTypeLoop_len (tag : Nat) : ∀ acc : List Nat,
    acc.length ≤ (ASN1.encodeTypeLoop tag acc).length := by
  induction tag using Nat.strong_induction_on with
  | _ tag ih =>
    intro acc
    rw [ASN1.encodeTypeLoop]
    split
    · exact le_rfl
    · next h =>
      calc acc.length
          ≤ ((if tag < 0x80 then tag else 0x80 ||| (tag % 128)) :: acc).length := by
            simp
        _ ≤ _ := ih (tag / 128) (Nat.div_lt_self (by omega) (by omega)) _

theorem encodeType_ne_nil (c t g : Nat) : ASN1.encodeType c t g ≠ [] := by
  unfold ASN1.encodeType
  split
  · simp
  · intro hnil
    have := encodeTypeLoop_len g [((c <<< 6) ||| (t <<< 5)) ||| 0x1f]
    rw [hnil] at this
    simp at this

theorem encode_ok_ne_nil (t : ASN1) (bs : List Nat)
    (h : ASN1.encode t = .ok bs) : bs ≠ [] := by
  cases t with
  | intN c ty g l v =>
    rw [ASN1.encode] at h
    split at h
    · simp only [Except.ok.injEq] at h
      subst h
      simp [List.append_eq_nil]
      intro hc
      exact absurd hc (encodeType_ne_nil c ty g)
    · split at h <;> simp_all
  | seqN c ty g l cs =>
    rw [ASN1.encode] at h
    split at h
    · simp_all
    · split at h
      · cases henc : ASN1.encodeList cs with
        | error e => rw [henc] at h; simp_all
        | ok val =>
          rw [henc] at h
          simp only [Except.ok.injEq] at h
          subst h
          simp [List.append_eq_nil]
          intro hc
          exact absurd hc (encodeType_ne_nil c ty g)
      · simp_all

theorem wfB_intN {c t g l v : Nat}
    (h : ASN1.wfB (.intN c t g l v) = true) : t = 0 ∧ g = 2 ∧ c < 4 := by
  simpa [ASN1.wfB, and_assoc] using h

theorem wfB_seqN {c t g l : Nat} {cs : List ASN1}
    (h : ASN1.wfB (.seqN c t g l cs) = true) :
    t = 1 ∧ g = 16 ∧ c < 4 ∧ ASN1.wfListB cs = true := by
  simpa [ASN1.wfB, and_assoc] using h

theorem wfListB_cons {x : ASN1} {xs : List ASN1}
    (h : ASN1.wfListB (x :: xs) = true) :
    ASN1.wfB x = true ∧ ASN1.wfListB xs = true := by
  simpa [ASN1.wfListB] using h

theorem tailOkList_cons_cons {x y : ASN1} {ys : List ASN1}
    (h : ASN1.tailOkList (x :: y :: ys) = true) :
    ASN1.isInt x = true ∧ ASN1.tailOkList (y :: ys) = true := by
  simpa [ASN1.tailOkList] using h

theorem tailOkList_single {x : ASN1}
    (h : ASN1.tailOkList [x] = true) : ASN1.tailOk x = true := by
  simpa [ASN1.tailOkList] using h

theorem encodeList_cons_ok {x : ASN1} {xs : List ASN1} {val : List Nat}
    (h : ASN1.encodeList (x :: xs) = .ok val) :
    ∃ vx vxs, ASN1.encode x = .ok vx ∧ ASN1.encodeList xs = .ok vxs ∧
      val = vx ++ vxs := by
  rw [ASN1.encodeList] at h
  cases h1 : ASN1.encode x with
  | error e => rw [h1] at h; simp at h
  | ok vx =>
    rw [h1] at h
    cases h2 : ASN1.encodeList xs with
    | error e => rw [h2] at h; simp at h
    | ok vxs =>
      rw [h2] at h
      simp only [Except.ok.injEq] at h
      exact ⟨vx, vxs, rfl, rfl, h.symm⟩

theorem wf_int_shape {x : ASN1} (hw : ASN1.wfB x = true)
    (hi : ASN1.isInt x = true) :
    ∃ c l v, x = .intN c 0 2 l v ∧ c < 4 := by
  cases x with
  | intN c t g l v =>
    obtain ⟨h0, h2, hc⟩ := wfB_intN hw
    exact ⟨c, l, v, by rw [h0, h2], hc⟩
  | seqN c t g l cs => simp [ASN1.isInt] at hi

theorem wf_seq_shape {x : ASN1} (hw : ASN1.wfB x = true)
    (hs : ASN1.isSeq x = true) :
    ∃ c l cs, x = .seqN c 1 16 l cs ∧ c < 4 ∧ ASN1.wfListB cs = true := by
  cases x with
  | intN c t g l v => simp [ASN1.isSeq] at hs
  | seqN c t g l cs =>
    obtain ⟨h1, h16, hc, hcs⟩ := wfB_seqN hw
    exact ⟨c, l, cs, by rw [h1, h16], hc, hcs⟩

theorem int_or_seq (x : ASN1) : ASN1.isInt x = true ∨ ASN1.isSeq x = true := by
  cases x <;> simp [ASN1.isInt, ASN1.isSeq]

/-- Decoding property of an INTEGER node: its encoding, placed anywhere in a
buffer, decodes locally (up to `_len` redecoration) and advances the offset
by exactly its length. -/
def DecInt (t : ASN1) : Prop :=
  ∀ bs b off rest fuel, ASN1.encode t = .ok bs → bs.length < 256 ^ 127 →
    1 ≤ fuel → b ≠ [] → b.drop off = bs ++ rest →
    ∃ t', ASN1.structEq t' t = true ∧
      ASN1.decodeAux fuel b off = .ok (t', off + bs.length)

/-- Decoding property of a SEQUENCE node: its encoding, placed as the final
segment of a buffer, decodes (up to `_len` redecoration), consuming the rest
of the buffer. -/
def DecSeq (t : ASN1) : Prop :=
  ∀ bs b off fuel, ASN1.encode t = .ok bs → bs.length < 256 ^ 127 →
    ASN1.need t ≤ fuel → b ≠ [] → b.drop off = bs →
    ∃ t', ASN1.structEq t' t = true ∧
      ASN1.decodeAux fuel b off = .ok (t', b.length)

theorem decInt_intN (c l v : Nat) (hc : c < 4) : DecInt (.intN c 0 2 l v) := by
  intro bs b off rest fuel henc hB hf hbne hdrop
  rw [encode_int_eq c l v hc] at henc
  have hbs : bs = (64 * c + 2) ::
      (ASN1.encodeLen (int2bin v true) ++ int2bin v true) := by
    cases henc; rfl
  subst hbs
  obtain ⟨f, rfl⟩ : ∃ f, fuel = f + 1 := ⟨fuel - 1, by omega⟩
  have hemp : b.isEmpty = false := by
    cases b
    · exact absurd rfl hbne
    · rfl
  have hdrop' : b.drop off = (64 * c + 2) ::
      (ASN1.encodeLen (int2bin v true) ++ (int2bin v true ++ rest)) := by
    simpa [List.append_assoc] using hdrop
  have htype := decodeType_int_at b off c _ hc hdrop'
  have hdrop1 : b.drop (off + 1) =
      ASN1.encodeLen (int2bin v true) ++ (int2bin v true ++ rest) := by
    simpa using drop_of_drop_eq b off _ hdrop' 1
  have hvblt : (int2bin v true).length < 256 ^ 127 := by
    have h1 := encodeLen_len_pos (int2bin v true)
    simp [List.length_cons, List.length_append] at hB
    omega
  have hlen := decodeLen_at b (off + 1) (int2bin v true) rest hvblt hdrop1
  have hdrop2 : b.drop (off + 1 + (ASN1.encodeLen (int2bin v true)).length) =
      int2bin v true ++ rest := by
    have h2 := drop_of_drop_eq b (off + 1) _ hdrop1
      (ASN1.encodeLen (int2bin v true)).length
    rwa [List.drop_left] at h2
  have htake : (b.drop (off + 1 + (ASN1.encodeLen (int2bin v true)).length)).take
      (int2bin v true).length = int2bin v true := by
    rw [hdrop2]
    exact List.take_left _ rest
  have hvbne : (int2bin v true) ≠ [] := int2bin_ne_nil v true
  refine ⟨.intN c 0 2 (int2bin v true).length v, by simp [ASN1.structEq], ?_⟩
  rw [ASN1.decodeAux]
  rw [hemp]
  simp only [Bool.false_eq_true, if_false, htype, hlen, htake, if_true]
  rw [if_neg (by simpa [List.isEmpty_iff] using hvbne)]
  rw [if_neg (by omega)]
  rw [bin2int_int2bin]
  have : off + 1 + (ASN1.encodeLen (int2bin v true)).length +
      (int2bin v true).length =
      off + ((64 * c + 2) ::
        (ASN1.encodeLen (int2bin v true) ++ int2bin v true)).length := by
    simp [List.length_cons, List.length_append]
    omega
  rw [this]

theorem needList_pos (cs : List ASN1) : 1 ≤ ASN1.needList cs := by
  cases cs with
  | nil => simp [ASN1.needList]
  | cons x xs => simp [ASN1.needList]

theorem decodeSeq_loop : ∀ cs : List ASN1,
    (∀ c ∈ cs, ASN1.wfB c = true → ASN1.tailOk c = true →
      ASN1.isSeq c = true → DecSeq c) →
    ASN1.wfListB cs = true → ASN1.tailOkList cs = true →
    ∀ val b off acc fuel, ASN1.encodeList cs = .ok val →
      val.length < 256 ^ 127 → ASN1.needList cs ≤ fuel → b ≠ [] →
      b.drop off = val → off ≤ b.length →
      ∃ cs', ASN1.structEqList cs' cs = true ∧
        ASN1.decodeSeqAux fuel b off acc = .ok (acc ++ cs', b.length) := by
  intro cs
  induction cs with
  | nil =>
    intro hrec hw ht val b off acc fuel henc hB hneed hbne hdrop hoffle
    have hval : val = [] := by rw [ASN1.encodeList] at henc; cases henc; rfl
    subst hval
    have hoff : off = b.length := by
      have := List.drop_eq_nil_iff.mp hdrop
      omega
    obtain ⟨f, rfl⟩ : ∃ f, fuel = f + 1 := by
      have h1 : (1 : Nat) ≤ fuel := le_trans (needList_pos []) hneed
      exact ⟨fuel - 1, by omega⟩
    refine ⟨[], rfl, ?_⟩
    rw [ASN1.decodeSeqAux]
    rw [if_neg (by omega)]
    rw [List.append_nil, hoff]
  | cons x xs ih =>
    intro hrec hw ht val b off acc fuel henc hB hneed hbne hdrop hoffle
    obtain ⟨vx, vxs, henx, henxs, rfl⟩ := encodeList_cons_ok henc
    obtain ⟨hwx, hwxs⟩ := wfListB_cons hw
    have hvxne : vx ≠ [] := encode_ok_ne_nil x vx henx
    obtain ⟨f, rfl⟩ : ∃ f, fuel = f + 1 := by
      have h1 : (1 : Nat) ≤ fuel := le_trans (needList_pos _) hneed
      exact ⟨fuel - 1, by omega⟩
    have hmax : max (ASN1.need x) (ASN1.needList xs) ≤ f := by
      have h2 : 1 + max (ASN1.need x) (ASN1.needList xs) ≤ f + 1 := by
        simpa [ASN1.needList] using hneed
      omega
    obtain ⟨hn1, hn2⟩ := Nat.max_le.mp hmax
    have hvne : vx ++ vxs ≠ [] := by simp [hvxne]
    obtain ⟨hlenoff, hofflt⟩ := length_of_drop_eq b off _ hdrop hvne
    have hvxlt : vx.length < 256 ^ 127 := by
      rw [List.length_append] at hB; omega
    cases xs with
    | nil =>
      have htx : ASN1.tailOk x = true := tailOkList_single ht
      have hvxs : vxs = [] := by rw [ASN1.encodeList] at henxs; cases henxs; rfl
      subst hvxs
      have hoffend : off + vx.length = b.length := by
        simpa using hlenoff
      obtain ⟨f', rfl⟩ : ∃ f', f = f' + 1 := by
        have : (1 : Nat) ≤ f := le_trans (needList_pos []) hn2
        exact ⟨f - 1, by omega⟩
      rcases int_or_seq x with hint | hseq
      · obtain ⟨c, l, v, rfl, hc⟩ := wf_int_shape hwx hint
        obtain ⟨x', hsx, hdecEq⟩ :=
          decInt_intN c l v hc vx b off [] (f' + 1) henx hvxlt (by omega)
            hbne (by simpa using hdrop)
        refine ⟨[x'], by simp [ASN1.structEqList, hsx], ?_⟩
        rw [ASN1.decodeSeqAux]
        simp only [hofflt, if_true, hdecEq, hoffend]
        rw [ASN1.decodeSeqAux]
        rw [if_neg (by omega)]
      · have hdseq := hrec x (by simp) hwx htx hseq
        obtain ⟨x', hsx, hdecEq⟩ :=
          hdseq vx b off (f' + 1) henx hvxlt hn1 hbne (by simpa using hdrop)
        refine ⟨[x'], by simp [ASN1.structEqList, hsx], ?_⟩
        rw [ASN1.decodeSeqAux]
        simp only [hofflt, if_true, hdecEq]
        rw [ASN1.decodeSeqAux]
        rw [if_neg (by omega)]
    | cons y ys =>
      obtain ⟨hix, htxs⟩ := tailOkList_cons_cons ht
      obtain ⟨c, l, v, rfl, hc⟩ := wf_int_shape hwx hix
      obtain ⟨x', hsx, hdecEq⟩ :=
        decInt_intN c l v hc vx b off vxs f henx hvxlt
          (by simpa [ASN1.need] using hn1) hbne hdrop
      have hdropnext : b.drop (off + vx.length) = vxs := by
        have h3 := drop_of_drop_eq b off _ hdrop vx.length
        rwa [List.drop_left] at h3
      have hvxslt : vxs.length < 256 ^ 127 := by
        rw [List.length_append] at hB; omega
      obtain ⟨cs', hscs, hseqEq⟩ :=
        ih (fun cc hm => hrec cc (by simp [hm])) hwxs htxs vxs b
          (off + vx.length) (acc ++ [x']) f henxs hvxslt hn2 hbne hdropnext
          (by rw [List.length_append] at hlenoff; omega)
      refine ⟨x' :: cs', by simp [ASN1.structEqList, hsx, hscs], ?_⟩
      rw [ASN1.decodeSeqAux]
      simp only [hofflt, if_true, hdecEq, hseqEq]
      simp

theorem decSeq_of_wf : ∀ t : ASN1, ASN1.wfB t = true → ASN1.tailOk t = true →
    ASN1.isSeq t = true → DecSeq t := by
  suffices H : ∀ n, ∀ t : ASN1, sizeOf t ≤ n → ASN1.wfB t = true →
      ASN1.tailOk t = true → ASN1.isSeq t = true → DecSeq t by
    exact fun t => H (sizeOf t) t le_rfl
  intro n
  induction n with
  | zero =>
    intro t hsz
    exfalso
    cases t <;> simp at hsz
  | succ n ihn =>
    intro t hsz hwf htail hseq
    obtain ⟨c, l, cs, rfl, hc, hwcs⟩ := wf_seq_shape hwf hseq
    have htcs : ASN1.tailOkList cs = true := by simpa [ASN1.tailOk] using htail
    intro bs b off fuel henc hB hneed hbne hdrop
    obtain ⟨val, hval⟩ : ∃ val, ASN1.encodeList cs = .ok val := by
      cases hv : ASN1.encodeList cs with
      | error e =>
        rw [ASN1.encode] at henc
        rw [if_neg (by omega), if_pos ⟨rfl, rfl⟩, hv] at henc
        exact absurd henc (by simp)
      | ok val => exact ⟨val, rfl⟩
    have henc2 := encode_seq_eq c l cs val hc hval
    rw [henc2] at henc
    have hbs : bs = (64 * c + 48) :: (ASN1.encodeLen val ++ val) := by
      cases henc; rfl
    subst hbs
    have h1 : 1 + ASN1.needList cs ≤ fuel := by simpa [ASN1.need] using hneed
    obtain ⟨f, rfl⟩ : ∃ f, fuel = f + 1 := ⟨fuel - 1, by omega⟩
    have hfn : ASN1.needList cs ≤ f := by omega
    have hemp : b.isEmpty = false := by
      cases b
      · exact absurd rfl hbne
      · rfl
    have htype := decodeType_seq_at b off c _ hc hdrop
    have hdrop1 : b.drop (off + 1) = ASN1.encodeLen val ++ (val ++ []) := by
      have := drop_of_drop_eq b off _ hdrop 1
      simpa using this
    have hvallt : val.length < 256 ^ 127 := by
      simp [List.length_cons, List.length_append] at hB
      omega
    have hlen := decodeLen_at b (off + 1) val [] hvallt hdrop1
    have hdrop2 : b.drop (off + 1 + (ASN1.encodeLen val).length) = val := by
      have h2 := drop_of_drop_eq b (off + 1) _ hdrop1 (ASN1.encodeLen val).length
      rw [List.drop_left] at h2
      simpa using h2
    obtain ⟨hlenoff, hofflt⟩ := length_of_drop_eq b off _ hdrop (by simp)
    have hoffle2 : off + 1 + (ASN1.encodeLen val).length ≤ b.length := by
      simp [List.length_cons, List.length_append] at hlenoff
      omega
    have hrec : ∀ cc ∈ cs, ASN1.wfB cc = true → ASN1.tailOk cc = true →
        ASN1.isSeq cc = true → DecSeq cc := by
      intro cc hm hw2 ht2 hs2
      have h4 := List.sizeOf_lt_of_mem hm
      have h5 : sizeOf cs < sizeOf (ASN1.seqN c 1 16 l cs) := by
        simp
      exact ihn cc (by omega) hw2 ht2 hs2
    obtain ⟨cs', hscs, hloopEq⟩ :=
      decodeSeq_loop cs hrec hwcs htcs val b
        (off + 1 + (ASN1.encodeLen val).length) [] f hval hvallt hfn hbne
        hdrop2 hoffle2
    refine ⟨.seqN c 1 16 val.length cs', by simp [ASN1.structEq, hscs], ?_⟩
    rw [ASN1.decodeAux]
    rw [hemp]
    have hne2 : ¬ (b.length = off) := by omega
    simp only [Bool.false_eq_true, if_false, htype, hlen, hloopEq, if_true,
      List.nil_append]
    rw [if_neg hne2]
    rw [if_neg (show ¬((1 : Nat) = 0) by omega)]

theorem sizeOf_head_lt (x : ASN1) (xs : List ASN1) :
    sizeOf x < sizeOf (x :: xs) := by
  simp only [List.cons.sizeOf_spec]
  omega

theorem sizeOf_tail_lt (x : ASN1) (xs : List ASN1) :
    sizeOf xs < sizeOf (x :: xs) := by
  simp only [List.cons.sizeOf_spec]
  omega

theorem encode_need_aux : ∀ n,
    (∀ t : ASN1, sizeOf t ≤ n → ∀ bs, ASN1.encode t = .ok bs →
      ASN1.need t ≤ bs.length + 1) ∧
    (∀ cs : List ASN1, sizeOf cs ≤ n → ∀ val, ASN1.encodeList cs = .ok val →
      ASN1.needList cs ≤ val.length + 2) := by
  intro n
  induction n with
  | zero =>
    constructor
    · intro t hsz
      exfalso
      cases t <;> simp at hsz
    · intro cs hsz
      exfalso
      cases cs <;> simp at hsz
  | succ n ihn =>
    constructor
    · intro t hsz bs henc
      cases t with
      | intN c t g l v =>
        simp [ASN1.need]
      | seqN c t g l cs =>
        rw [ASN1.encode] at henc
        split at henc
        · simp at henc
        · split at henc
          · cases hv : ASN1.encodeList cs with
            | error e => rw [hv] at henc; simp at henc
            | ok val =>
              rw [hv] at henc
              simp only [Except.ok.injEq] at henc
              subst henc
              have hszcs : sizeOf cs ≤ n := by
                have : sizeOf cs < sizeOf (ASN1.seqN c t g l cs) := by simp
                omega
              have hcs : ASN1.needList cs ≤ val.length + 2 :=
                ihn.2 cs hszcs val hv
              have h1 := encodeLen_len_pos val
              have h2 : 1 ≤ (ASN1.encodeType c t g).length :=
                List.length_pos.mpr (encodeType_ne_nil c t g)
              simp [ASN1.need, List.length_append]
              omega
          · simp at henc
    · intro cs hsz val henc
      cases cs with
      | nil =>
        rw [ASN1.encodeList] at henc
        cases henc
        simp [ASN1.needList]
      | cons x xs =>
        obtain ⟨vx, vxs, henx, henxs, rfl⟩ := encodeList_cons_ok henc
        have hszx : sizeOf x ≤ n := by
          have h6 := sizeOf_head_lt x xs
          omega
        have hszxs : sizeOf xs ≤ n := by
          have h6 := sizeOf_tail_lt x xs
          omega
        have hx : ASN1.need x ≤ vx.length + 1 := ihn.1 x hszx vx henx
        have hxs : ASN1.needList xs ≤ vxs.length + 2 := ihn.2 xs hszxs vxs henxs
        have hvx : 1 ≤ vx.length :=
          List.length_pos.mpr (encode_ok_ne_nil x vx henx)
        have hm : max (ASN1.need x) (ASN1.needList xs) ≤
            vx.length + vxs.length + 1 :=
          Nat.max_le.mpr ⟨by omega, by omega⟩
        simp [ASN1.needList, List.length_append]
        omega

theorem encode_congr_aux : ∀ n,
    (∀ t t' : ASN1, sizeOf t ≤ n → ASN1.structEq t' t = true →
      ASN1.encode t' = ASN1.encode t) ∧
    (∀ cs cs' : List ASN1, sizeOf cs ≤ n → ASN1.structEqList cs' cs = true →
      ASN1.encodeList cs' = ASN1.encodeList cs) := by
  intro n
  induction n with
  | zero =>
    constructor
    · intro t t' hsz
      exfalso
      cases t <;> simp at hsz
    · intro cs cs' hsz
      exfalso
      cases cs <;> simp at hsz
  | succ n ihn =>
    constructor
    · intro t t' hsz hs
      cases t with
      | intN c ty g l v =>
        cases t' with
        | intN c' ty' g' l' v' =>
          simp [ASN1.structEq] at hs
          obtain ⟨⟨⟨hc, hty⟩, hg⟩, hv⟩ := hs
          subst hc; subst hty; subst hg; subst hv
          rw [ASN1.encode, ASN1.encode]
        | seqN c' ty' g' l' cs' => simp [ASN1.structEq] at hs
      | seqN c ty g l cs =>
        cases t' with
        | intN c' ty' g' l' v' => simp [ASN1.structEq] at hs
        | seqN c' ty' g' l' cs' =>
          simp [ASN1.structEq] at hs
          have hszcs : sizeOf cs ≤ n := by
            have h6 : sizeOf cs < sizeOf (ASN1.seqN c ty g l cs) := by simp
            omega
          obtain ⟨⟨⟨hc, hty⟩, hg⟩, hcs⟩ := hs
          subst hc; subst hty; subst hg
          have hrec := ihn.2 cs cs' hszcs hcs
          rw [ASN1.encode, ASN1.encode, hrec]
    · intro cs cs' hsz hs
      cases cs with
      | nil =>
        cases cs' with
        | nil => rfl
        | cons y ys => simp [ASN1.structEqList] at hs
      | cons x xs =>
        cases cs' with
        | nil => simp [ASN1.structEqList] at hs
        | cons y ys =>
          simp [ASN1.structEqList] at hs
          obtain ⟨h1, h2⟩ := hs
          have hszx : sizeOf x ≤ n := by
            have h6 := sizeOf_head_lt x xs
            omega
          have hszxs : sizeOf xs ≤ n := by
            have h6 := sizeOf_tail_lt x xs
            omega
          rw [ASN1.encodeList, ASN1.encodeList,
            ihn.1 x y hszx h1, ihn.2 xs ys hszxs h2]

theorem encode_congr {t t' : ASN1} (hs : ASN1.structEq t' t = true) :
    ASN1.encode t' = ASN1.encode t :=
  (encode_congr_aux (sizeOf t)).1 t t' le_rfl hs

/-- The corrected round-trip theorem: encoding a well-formed tree in which
nested SEQUENCEs only occur as last children, then decoding, recovers the
tree up to `_len` redecoration, consumes exactly the buffer, and re-encodes
to the identical bytes. -/
theorem decode_encode_roundtrip (t : ASN1) (hwf : ASN1.wfB t = true)
    (htail : ASN1.tailOk t = true) (bs : List Nat)
    (henc : ASN1.encode t = .ok bs) (hB : bs.length < 256 ^ 127) :
    ∃ t', ASN1.structEq t' t = true ∧ ASN1.decode bs 0 = .ok (t', bs.length) ∧
      ASN1.encode t' = .ok bs := by
  have hbne : bs ≠ [] := encode_ok_ne_nil t bs henc
  rcases int_or_seq t with hint | hseq
  · obtain ⟨c, l, v, rfl, hc⟩ := wf_int_shape hwf hint
    obtain ⟨t', hs, hd⟩ := decInt_intN c l v hc bs bs 0 [] (bs.length + 1)
      henc hB (by omega) hbne (by simp)
    refine ⟨t', hs, ?_, ?_⟩
    · simpa [ASN1.decode] using hd
    · rw [encode_congr hs]
      exact henc
  · have hneed : ASN1.need t ≤ bs.length + 1 :=
      (encode_need_aux (sizeOf t)).1 t le_rfl bs henc
    obtain ⟨t', hs, hd⟩ := decSeq_of_wf t hwf htail hseq bs bs 0
      (bs.length + 1) henc hB hneed hbne (by simp)
    refine ⟨t', hs, ?_, ?_⟩
    · simpa [ASN1.decode] using hd
    · rw [encode_congr hs]
      exact henc

/-!  ## Structural facts about the decoder (for C2/C4)  -/

theorem decodeType_ok_bounds {b : List Nat} {off c t g off1 : Nat}
    (h : ASN1.decodeType b off = .ok (c, t, g, off1)) : c < 4 ∧ t ≤ 1 := by
  unfold ASN1.decodeType at h
  cases hb : b[off]? with
  | none => rw [hb] at h; cases h
  | some v =>
    rw [hb] at h
    have hc : (v &&& 0xc0) >>> 6 < 4 := by
      have h1 : v &&& 0xc0 ≤ 0xc0 := Nat.and_le_right
      rw [Nat.shiftRight_eq_div_pow]
      omega
    have ht : (v &&& 0x20) >>> 5 ≤ 1 := by
      have h1 : v &&& 0x20 ≤ 0x20 := Nat.and_le_right
      rw [Nat.shiftRight_eq_div_pow]
      omega
    dsimp only at h
    split at h
    · cases h
      exact ⟨hc, ht⟩
    · split at h
      · cases h
      · split at h
        · cases h
        · cases h
          exact ⟨hc, ht⟩

theorem decode_consume_aux : ∀ fuel : Nat,
    (∀ b off node off', ASN1.decodeAux fuel b off = .ok (node, off') →
      node.typ = 1 → b.length ≤ off') ∧
    (∀ b off acc cs off', ASN1.decodeSeqAux fuel b off acc = .ok (cs, off') →
      b.length ≤ off') := by
  intro fuel
  induction fuel with
  | zero =>
    constructor
    · intro b off node off' h
      rw [ASN1.decodeAux] at h
      cases h
    · intro b off acc cs off' h
      rw [ASN1.decodeSeqAux] at h
      cases h
  | succ f ih =>
    constructor
    · intro b off node off' h htyp
      rw [ASN1.decodeAux] at h
      split at h
      · cases h
        simp [ASN1.typ] at htyp
      · split at h
        · cases h
        · split at h
          · cases h
          · dsimp only at h
            split at h
            · split at h
              · split at h
                · cases h
                · split at h
                  · cases h
                  · cases h
                    simp only [ASN1.typ] at htyp
                    omega
              · cases h
            · split at h
              · split at h
                · cases h
                · split at h
                  · cases h
                  · cases h
                    exact ih.2 _ _ _ _ _ (by assumption)
              · cases h
    · intro b off acc cs off' h
      rw [ASN1.decodeSeqAux] at h
      split at h
      · split at h
        · cases h
        · exact ih.2 _ _ _ _ _ h
      · cases h
        omega

theorem decode_ok_shape (b : List Nat) (off : Nat) (node : ASN1) (off' : Nat)
    (h : ASN1.decode b off = .ok (node, off')) (hne : b ≠ []) :
    (node.typ = 0 ∧ node.tag = 2) ∨ (node.typ = 1 ∧ node.tag = 16) := by
  unfold ASN1.decode at h
  rw [ASN1.decodeAux] at h
  rw [if_neg (by simpa [List.isEmpty_iff] using hne)] at h
  split at h
  · cases h
  · next heqType =>
    obtain ⟨hcb, htb⟩ := decodeType_ok_bounds heqType
    split at h
    · cases h
    · dsimp only at h
      split at h
      · split at h
        · split at h
          · cases h
          · split at h
            · cases h
            · cases h
              left
              simp only [ASN1.typ, ASN1.tag]
              exact ⟨by assumption, by assumption⟩
        · cases h
      · split at h
        · split at h
          · cases h
          · split at h
            · cases h
            · cases h
              right
              simp only [ASN1.typ, ASN1.tag]
              exact ⟨by omega, by assumption⟩
        · cases h

theorem decode_unsupported (b : List Nat) (off : Nat)
    (c t g off1 len off2 : Nat) (hne : b ≠ [])
    (ht : ASN1.decodeType b off = .ok (c, t, g, off1))
    (hl : ASN1.decodeLen b off1 = .ok (len, off2))
    (h1 : ¬(t = 0 ∧ g = 2)) (h2 : ¬(t = 1 ∧ g = 16)) :
    ASN1.decode b off = .error .unsupportedType := by
  obtain ⟨hcb, htb⟩ := decodeType_ok_bounds ht
  unfold ASN1.decode
  rw [ASN1.decodeAux]
  rw [if_neg (by simpa [List.isEmpty_iff] using hne)]
  simp only [ht, hl]
  by_cases ht0 : t = 0
  · subst ht0
    rw [if_pos rfl]
    rw [if_neg (fun hg => h1 ⟨rfl, hg⟩)]
  · rw [if_neg ht0]
    have ht1 : t = 1 := by omega
    subst ht1
    rw [if_neg (fun hg => h2 ⟨rfl, hg⟩)]

/-!  ## Facts about the RSA block primitive's byte conversions  -/

theorem toBytesBE_length (o v : Nat) : (toBytesBE o v).length = o := by
  simp [toBytesBE]

theorem byte_and_255 (x : Nat) : x &&& 255 = x % 256 := by
  have h := Nat.and_pow_two_sub_one_eq_mod x 8
  norm_num at h
  exact h

theorem toBytesBE_bytes (o v : Nat) : ∀ x ∈ toBytesBE o v, x < 256 := by
  intro x hx
  simp [toBytesBE] at hx
  obtain ⟨i, hi, hxe⟩ := hx
  rw [byte_and_255] at hxe
  omega

theorem toBytesBE_val (o v : Nat) : bin2int (toBytesBE o v) = v % 256 ^ o := by
  induction o with
  | zero => simp [toBytesBE, bin2int, Nat.mod_one]
  | succ o ih =>
    have hr : toBytesBE (o + 1) v = ((v >>> (8 * o)) &&& 255) :: toBytesBE o v := by
      simp [toBytesBE, List.range_succ]
    rw [hr, bin2int_cons, toBytesBE_length, ih]
    rw [Nat.shiftRight_eq_div_pow, byte_and_255]
    have h2 : (2 : Nat) ^ (8 * o) = 256 ^ o := by
      rw [Nat.pow_mul]
    rw [h2, pow_succ, Nat.mod_mul]
    ring

theorem beVal_eq_bin2int (l : List Nat) : beVal l = bin2int l := by
  unfold beVal bin2int
  congr 1
  funext x y
  rw [Nat.shiftLeft_eq]

theorem base_inj_digit {a b r1 r2 P : Nat} (h1 : r1 < P) (h2 : r2 < P)
    (h : a * P + r1 = b * P + r2) : a = b ∧ r1 = r2 := by
  have hab : a = b := by
    rcases Nat.lt_trichotomy a b with hlt | heq | hgt
    · exfalso
      have e2 : (a + 1) * P ≤ b * P := Nat.mul_le_mul_right _ (by omega)
      have e1 : (a + 1) * P = a * P + P := by ring
      omega
    · exact heq
    · exfalso
      have e2 : (b + 1) * P ≤ a * P := Nat.mul_le_mul_right _ (by omega)
      have e1 : (b + 1) * P = b * P + P := by ring
      omega
  subst hab
  omega

theorem bin2int_inj (l1 : List Nat) : ∀ l2 : List Nat,
    l1.length = l2.length → (∀ x ∈ l1, x < 256) → (∀ x ∈ l2, x < 256) →
    bin2int l1 = bin2int l2 → l1 = l2 := by
  induction l1 with
  | nil =>
    intro l2 hlen _ _ _
    cases l2 with
    | nil => rfl
    | cons b m => simp at hlen
  | cons a l ih =>
    intro l2 hlen h1 h2 hEq
    cases l2 with
    | nil => simp at hlen
    | cons b m =>
      have hl : l.length = m.length := by simpa using hlen
      rw [bin2int_cons, bin2int_cons, hl] at hEq
      have hbl : bin2int l < 256 ^ m.length := by
        rw [← hl]
        exact bin2int_lt l (fun x hx => h1 x (by simp [hx]))
      have hbm : bin2int m < 256 ^ m.length :=
        bin2int_lt m (fun x hx => h2 x (by simp [hx]))
      obtain ⟨hab, hrest⟩ := base_inj_digit hbl hbm hEq
      subst hab
      rw [ih m hl (fun x hx => h1 x (by simp [hx]))
        (fun x hx => h2 x (by simp [hx])) hrest]

/-!  ## Number theory for RSA sign/verify  -/

theorem pow_cycle_prime (p x k : Nat) (hp : p.Prime) :
    x ^ (k * (p - 1) + 1) ≡ x [MOD p] := by
  by_cases hdvd : p ∣ x
  · have h1 : x ≡ 0 [MOD p] := Nat.modEq_zero_iff_dvd.mpr hdvd
    have h2 : x ^ (k * (p - 1) + 1) ≡ 0 [MOD p] :=
      Nat.modEq_zero_iff_dvd.mpr (dvd_pow hdvd (by omega))
    exact h2.trans h1.symm
  · have hco : x.Coprime p :=
      Nat.coprime_comm.mp ((hp.coprime_iff_not_dvd).mpr hdvd)
    have he : x ^ p.totient ≡ 1 [MOD p] := Nat.ModEq.pow_totient hco
    rw [Nat.totient_prime hp] at he
    calc x ^ (k * (p - 1) + 1)
        = (x ^ (p - 1)) ^ k * x := by
          rw [pow_add, pow_one, Nat.mul_comm k, pow_mul]
      _ ≡ 1 ^ k * x [MOD p] := Nat.ModEq.mul_right x (he.pow k)
      _ = x := by simp

theorem rsa_core (p q e d x : Nat) (hp : p.Prime) (hq : q.Prime) (hpq : p ≠ q)
    (hed : e * d ≡ 1 [MOD Nat.lcm (p - 1) (q - 1)]) :
    x ^ (e * d) ≡ x [MOD p * q] := by
  have hp2 := hp.two_le
  have hq2 := hq.two_le
  have hLpos : 0 < Nat.lcm (p - 1) (q - 1) :=
    Nat.lcm_pos (by omega) (by omega)
  have hL2 : 2 ≤ Nat.lcm (p - 1) (q - 1) := by
    rcases Nat.lt_or_ge p 3 with hp3 | hp3
    · have hq3 : 3 ≤ q := by
        have := hq.two_le
        omega
      have hdq : (q - 1) ∣ Nat.lcm (p - 1) (q - 1) := Nat.dvd_lcm_right _ _
      have := Nat.le_of_dvd hLpos hdq
      omega
    · have hdp : (p - 1) ∣ Nat.lcm (p - 1) (q - 1) := Nat.dvd_lcm_left _ _
      have := Nat.le_of_dvd hLpos hdp
      omega
  have hed1 : 1 ≤ e * d := by
    have h1 : e * d % Nat.lcm (p - 1) (q - 1) = 1 % Nat.lcm (p - 1) (q - 1) :=
      hed
    have h2 : 1 % Nat.lcm (p - 1) (q - 1) = 1 := Nat.mod_eq_of_lt (by omega)
    by_contra hc
    have h0 : e * d = 0 := by omega
    rw [h0] at h1
    simp at h1
    omega
  have hdvd : Nat.lcm (p - 1) (q - 1) ∣ (e * d - 1) :=
    (Nat.modEq_iff_dvd' hed1).mp hed.symm
  have hmodp : x ^ (e * d) ≡ x [MOD p] := by
    obtain ⟨k, hk⟩ := dvd_trans (Nat.dvd_lcm_left (p - 1) (q - 1)) hdvd
    have h3 : e * d = k * (p - 1) + 1 := by
      rw [Nat.mul_comm k]
      omega
    rw [h3]
    exact pow_cycle_prime p x k hp
  have hmodq : x ^ (e * d) ≡ x [MOD q] := by
    obtain ⟨k, hk⟩ := dvd_trans (Nat.dvd_lcm_right (p - 1) (q - 1)) hdvd
    have h3 : e * d = k * (q - 1) + 1 := by
      rw [Nat.mul_comm k]
      omega
    rw [h3]
    exact pow_cycle_prime q x k hq
  have hco : Nat.Coprime p q := (Nat.coprime_primes hp hq).mpr hpq
  exact (Nat.modEq_and_modEq_iff_modEq_mul hco).mp ⟨hmodp, hmodq⟩

theorem rsa_pow_inj (p q e d c1 c2 : Nat) (hp : p.Prime) (hq : q.Prime)
    (hpq : p ≠ q) (hed : e * d ≡ 1 [MOD Nat.lcm (p - 1) (q - 1)])
    (h : c1 ^ e ≡ c2 ^ e [MOD p * q]) : c1 ≡ c2 [MOD p * q] := by
  have h1 : (c1 ^ e) ^ d ≡ (c2 ^ e) ^ d [MOD p * q] := h.pow d
  rw [← pow_mul, ← pow_mul] at h1
  have h2 := rsa_core p q e d c1 hp hq hpq hed
  have h3 := rsa_core p q e d c2 hp hq hpq hed
  exact h2.symm.trans (h1.trans h3)

/-!  ## RC4 symmetry  -/

theorem prga_prga (data : List Nat) : ∀ (t : List Nat) (x y : Nat),
    prga t x y (prga t x y data) = data := by
  induction data with
  | nil => intro t x y; simp [prga]
  | cons c rest ih =>
    intro t x y
    simp only [prga]
    rw [Nat.xor_cancel_right]
    rw [ih]

/-!  ## Unfolding lemmas for the RSA primitive and misc helpers  -/

theorem rsa_none_ok (data : List Nat) (n e bits : Nat) (hne : data ≠ [])
    (hlen : data.length ≤ bits / 8 - 1) :
    rsa data n e none bits =
      .ok (toBytesBE (bits / 8) (beVal data ^ e % n)) := by
  simp only [rsa, rsaParams]
  rw [if_neg (by simpa [List.isEmpty_iff] using hne)]
  rw [if_neg (by omega)]

theorem rsa_none_err (data : List Nat) (n e bits : Nat) (hne : data ≠ [])
    (hlen : bits / 8 - 1 < data.length) :
    rsa data n e none bits = .error .blockTooLarge := by
  simp only [rsa, rsaParams]
  rw [if_neg (by simpa [List.isEmpty_iff] using hne)]
  rw [if_pos (by omega)]

theorem rsa_some_ok (data : List Nat) (n e dv bits : Nat) (hdv : dv ≠ 0)
    (hne : data ≠ []) (hlen : data.length ≤ bits / 8) :
    rsa data n e (some dv) bits =
      .ok (toBytesBE (bits / 8 - 1) (beVal data ^ dv % n)) := by
  simp only [rsa, rsaParams]
  rw [if_neg hdv]
  dsimp only
  rw [if_neg (by simpa [List.isEmpty_iff] using hne)]
  rw [if_neg (by omega)]

theorem rsa_some_err (data : List Nat) (n e dv bits : Nat) (hdv : dv ≠ 0)
    (hne : data ≠ []) (hlen : bits / 8 < data.length) :
    rsa data n e (some dv) bits = .error .blockTooLarge := by
  simp only [rsa, rsaParams]
  rw [if_neg hdv]
  dsimp only
  rw [if_neg (by simpa [List.isEmpty_iff] using hne)]
  rw [if_pos (by omega)]

theorem structEq_seq_inv {t' : ASN1} {c t g l : Nat} {cs : List ASN1}
    (h : ASN1.structEq t' (.seqN c t g l cs) = true) :
    ∃ l' cs', t' = .seqN c t g l' cs' ∧ ASN1.structEqList cs' cs = true := by
  cases t' with
  | intN c' t' g' l' v' => simp [ASN1.structEq] at h
  | seqN c' t' g' l' cs' =>
    simp [ASN1.structEq] at h
    obtain ⟨⟨⟨hc, ht⟩, hg⟩, hcs⟩ := h
    subst hc; subst ht; subst hg
    exact ⟨l', cs', rfl, hcs⟩

theorem structEq_int_inv {t' : ASN1} {c t g l v : Nat}
    (h : ASN1.structEq t' (.intN c t g l v) = true) :
    ∃ l', t' = .intN c t g l' v := by
  cases t' with
  | intN c' t' g' l' v' =>
    simp [ASN1.structEq] at h
    obtain ⟨⟨⟨hc, ht⟩, hg⟩, hv⟩ := h
    subst hc; subst ht; subst hg; subst hv
    exact ⟨l', rfl⟩
  | seqN c' t' g' l' cs' => simp [ASN1.structEq] at h

theorem structEqList_cons_inv {cs' : List ASN1} {x : ASN1} {xs : List ASN1}
    (h : ASN1.structEqList cs' (x :: xs) = true) :
    ∃ y ys, cs' = y :: ys ∧ ASN1.structEq y x = true ∧
      ASN1.structEqList ys xs = true := by
  cases cs' with
  | nil => simp [ASN1.structEqList] at h
  | cons y ys =>
    simp [ASN1.structEqList] at h
    exact ⟨y, ys, rfl, h.1, h.2⟩

theorem structEqList_nil_inv {cs' : List ASN1}
    (h : ASN1.structEqList cs' [] = true) : cs' = [] := by
  cases cs' with
  | nil => rfl
  | cons y ys => simp [ASN1.structEqList] at h

theorem natDigits_len_le_self (n : Nat) : (natDigits n).length ≤ n := by
  induction n using Nat.strong_induction_on with
  | _ n ih =>
    by_cases h : n = 0
    · simp [h, natDigits_zero]
    · rw [natDigits_succ n h]
      have h1 := ih (n / 256) (Nat.div_lt_self (by omega) (by omega))
      have h2 : n / 256 < n := Nat.div_lt_self (by omega) (by omega)
      simp
      omega

theorem encodeLen_len_le (val : List Nat) :
    (ASN1.encodeLen val).length ≤ 1 + val.length := by
  by_cases h : val.length < 128
  · rw [encodeLen_short val h]
    simp
  · rw [encodeLen_long val (by omega)]
    have := natDigits_len_le_self val.length
    simp
    omega

theorem two56_le_pow (k : Nat) (hk : 1 ≤ k) : 256 ≤ 256 ^ k := by
  calc (256 : Nat) = 256 ^ 1 := by norm_num
    _ ≤ 256 ^ k := Nat.pow_le_pow_right (by omega) hk

theorem ed_ge_one (p q e d : Nat) (hp : p.Prime) (hq : q.Prime) (hpq : p ≠ q)
    (hed : e * d ≡ 1 [MOD Nat.lcm (p - 1) (q - 1)]) : 1 ≤ e * d := by
  have hp2 := hp.two_le
  have hq2 := hq.two_le
  have hLpos : 0 < Nat.lcm (p - 1) (q - 1) :=
    Nat.lcm_pos (by omega) (by omega)
  have hL2 : 2 ≤ Nat.lcm (p - 1) (q - 1) := by
    rcases Nat.lt_or_ge p 3 with hp3 | hp3
    · have hq3 : 3 ≤ q := by
        have := hq.two_le
        omega
      have hdq : (q - 1) ∣ Nat.lcm (p - 1) (q - 1) := Nat.dvd_lcm_right _ _
      have := Nat.le_of_dvd hLpos hdq
      omega
    · have hdp : (p - 1) ∣ Nat.lcm (p - 1) (q - 1) := Nat.dvd_lcm_left _ _
      have := Nat.le_of_dvd hLpos hdp
      omega
  have h1 : e * d % Nat.lcm (p - 1) (q - 1) = 1 % Nat.lcm (p - 1) (q - 1) :=
    hed
  have h2 : 1 % Nat.lcm (p - 1) (q - 1) = 1 := Nat.mod_eq_of_lt (by omega)
  by_contra hc
  have h0 : e * d = 0 := by omega
  rw [h0] at h1
  simp at h1
  omega

/-!  ## Small-value evaluation lemmas for witnesses and counterexamples  -/

theorem natDigits_small (x : Nat) (h1 : 0 < x) (h2 : x < 256) :
    natDigits x = [x] := by
  rw [natDigits_succ x (by omega)]
  rw [Nat.div_eq_of_lt h2, natDigits_zero]
  simp [Nat.mod_eq_of_lt h2]

theorem int2bin_small (x : Nat) (h1 : 0 < x) (h2 : x < 128) :
    int2bin x true = [x] := by
  rw [int2bin_true_eq x (by omega), natDigits_small x h1 (by omega)]
  rw [if_neg (by simp; omega)]

theorem encode_int_small (c l v : Nat) (hc : c < 4) (h1 : 0 < v)
    (h2 : v < 128) :
    ASN1.encode (.intN c 0 2 l v) = .ok [64 * c + 2, 1, v] := by
  rw [encode_int_eq c l v hc, int2bin_small v h1 h2,
    encodeLen_short [v] (by simp)]
  simp

theorem encodeType_200 : ASN1.encodeType 0 0 200 = [1, 200, 31] := by
  have hbyte : ((0 <<< 6) ||| (0 <<< 5)) ||| 0x1f = 31 := by decide
  have h1 : (0x80 : Nat) ||| (200 % 128) = 200 := by decide
  rw [ASN1.encodeType, if_neg (by norm_num), hbyte]
  rw [ASN1.encodeTypeLoop, if_neg (by norm_num), if_neg (by norm_num), h1]
  have h200 : 200 / 128 = 1 := by norm_num
  rw [h200]
  rw [ASN1.encodeTypeLoop, if_neg (by norm_num), if_pos (by norm_num)]
  have h1' : 1 / 128 = 0 := by norm_num
  rw [h1']
  rw [ASN1.encodeTypeLoop, if_pos rfl]

/-!  ## Claims  -/

/-- C10: decoding an empty byte buffer raises no error: `decode` returns
the freshly initialised default node — universal class (0), primitive form
(0), tag 0, length 0 and empty value — together with the unchanged
offset 0. -/
theorem C10_empty_buffer_decode :
    ASN1.decode [] 0 = .ok (.seqN 0 0 0 0 [], 0) := rfl

/-- C4 (amended): `decode` never produces a node for a (form, tag)
combination other than primitive INTEGER or constructed SEQUENCE — when
the type and length headers parse, it fails with `UnsupportedTypeError` —
but the class bits are ignored entirely, so inputs of any class with those
(form, tag) combinations decode successfully (see the counterexample). -/
theorem C4_unsupported_form_tag :
    (∀ b off c t g off1 len off2, b ≠ [] →
      ASN1.decodeType b off = .ok (c, t, g, off1) →
      ASN1.decodeLen b off1 = .ok (len, off2) →
      ¬(t = 0 ∧ g = 2) → ¬(t = 1 ∧ g = 16) →
      ASN1.decode b off = .error .unsupportedType) ∧
    (∀ b off node off', ASN1.decode b off = .ok (node, off') → b ≠ [] →
      (node.typ = 0 ∧ node.tag = 2) ∨ (node.typ = 1 ∧ node.tag = 16)) :=
  ⟨fun b off c t g off1 len off2 hne ht hl h1 h2 =>
    decode_unsupported b off c t g off1 len off2 hne ht hl h1 h2,
   fun b off node off' h hne => decode_ok_shape b off node off' h hne⟩

/-- Witness for C4: the primitive, non-INTEGER input `[4, 1, 7]`
(OCTET STRING tag) fails with `UnsupportedTypeError`. -/
theorem C4_unsupported_form_tag_witness :
    (([4, 1, 7] : List Nat) ≠ [] ∧
      ASN1.decodeType [4, 1, 7] 0 = .ok (0, 0, 4, 1) ∧
      ASN1.decodeLen [4, 1, 7] 1 = .ok (1, 2) ∧
      ¬((0 : Nat) = 0 ∧ (4 : Nat) = 2) ∧ ¬((0 : Nat) = 1 ∧ (4 : Nat) = 16)) ∧
    ASN1.decode [4, 1, 7] 0 = .error .unsupportedType :=
  ⟨⟨by decide, rfl, rfl, by decide, by decide⟩,
   C4_unsupported_form_tag.1 [4, 1, 7] 0 0 0 4 1 1 2 (by decide) rfl rfl
     (by decide) (by decide)⟩

/-- C4 counterexample: the input `[0x82, 1, 5]` has class 2
(context-specific, non-universal), yet `decode` produces an INTEGER node
of value 5 instead of failing with `UnsupportedTypeError`: the class bits
are never checked. -/
theorem C4_counterexample :
    ASN1.decode [130, 1, 5] 0 = .ok (.intN 2 0 2 1 5, 3) ∧
    (ASN1.intN 2 0 2 1 5).cls = 2 ∧ (2 : Nat) ≠ 0 :=
  ⟨rfl, rfl, by decide⟩

/-- C2 (amended): when `decode` returns a constructed (SEQUENCE) node, the
returned offset is at least the length of the whole buffer: children are
decoded until the entire buffer is exhausted, not until the declared
`length`-byte window [off, off+L) is — bytes after the window are consumed
as children (see the counterexample). -/
theorem C2_seq_consumes_whole_buffer (b : List Nat) (off : Nat)
    (node : ASN1) (off' : Nat) (h : ASN1.decode b off = .ok (node, off'))
    (htyp : node.typ = 1) : b.length ≤ off' := by
  unfold ASN1.decode at h
  exact (decode_consume_aux (b.length + 1)).1 b off node off' h htyp

/-- Witness for C2. -/
theorem C2_seq_consumes_whole_buffer_witness :
    (ASN1.decode [48, 0] 0 = .ok (.seqN 0 1 16 0 [], 2) ∧
      (ASN1.seqN 0 1 16 0 []).typ = 1) ∧
    ([48, 0] : List Nat).length ≤ 2 :=
  ⟨⟨rfl, rfl⟩,
   C2_seq_consumes_whole_buffer [48, 0] 0 (.seqN 0 1 16 0 []) 2 rfl rfl⟩

/-- C2 counterexample: in `[48, 8, 48, 3, 2, 1, 1, 2, 1, 2]` the nested
SEQUENCE declares length 3 (value window at offsets 4..6, holding exactly
one 3-byte INTEGER), yet its decoded value contains two children: the
sibling INTEGER 2 at offsets 7..9 — after the window — was consumed as a
child of the nested SEQUENCE. -/
theorem C2_counterexample :
    ASN1.decode [48, 8, 48, 3, 2, 1, 1, 2, 1, 2] 0 =
      .ok (.seqN 0 1 16 8
        [.seqN 0 1 16 3 [.intN 0 0 2 1 1, .intN 0 0 2 1 2]], 10) ∧
    ([ASN1.intN 0 0 2 1 1, ASN1.intN 0 0 2 1 2] : List ASN1).length ≠ 1 :=
  ⟨rfl, by simp⟩

/-- C3 (amended): a value of byte length ≥ 128 round-trips through the
long-form length encoding (`_encodeLen` then `_decodeLen`); the multi-byte
tag encoding, by contrast, does **not** round-trip (see the
counterexample). -/
theorem C3_length_roundtrip (data rest : List Nat) (h128 : 128 ≤ data.length)
    (hB : data.length < 256 ^ 127) :
    ASN1.decodeLen (ASN1.encodeLen data ++ (data ++ rest)) 0 =
      .ok (data.length, (ASN1.encodeLen data).length) := by
  have h := decodeLen_at (ASN1.encodeLen data ++ (data ++ rest)) 0 data rest
    hB (by simp)
  simpa using h

/-- Witness for C3. -/
theorem C3_length_roundtrip_witness :
    (128 ≤ (List.replicate 128 7 : List Nat).length ∧
      (List.replicate 128 7 : List Nat).length < 256 ^ 127) ∧
    ASN1.decodeLen
      (ASN1.encodeLen (List.replicate 128 7) ++ (List.replicate 128 7 ++ []))
      0 =
      .ok ((List.replicate 128 7 : List Nat).length,
        (ASN1.encodeLen (List.replicate 128 7)).length) := by
  have hlen : (List.replicate 128 7 : List Nat).length = 128 := by simp
  have hB : (List.replicate 128 7 : List Nat).length < 256 ^ 127 := by
    have h2 := two56_le_pow 127 (by omega)
    omega
  exact ⟨⟨by omega, hB⟩,
    C3_length_roundtrip (List.replicate 128 7) [] (by omega) hB⟩

/-- C3 counterexample: encoding tag 200 with `_encodeType` yields
`[1, 200, 31]` (the continuation bytes are prepended *before* the header
byte), and `_decodeType` reads back tag 1 — not 200: multi-byte tags do
not round-trip. -/
theorem C3_counterexample :
    ASN1.encodeType 0 0 200 = [1, 200, 31] ∧
    ASN1.decodeType [1, 200, 31] 0 = .ok (0, 0, 1, 1) ∧ (1 : Nat) ≠ 200 :=
  ⟨encodeType_200, rfl, by decide⟩

/-- C8: for every positive integer, `int2bin` emits the magnitude bytes
prefixed with a 0x00 byte exactly when the most significant magnitude
byte is ≥ 0x80, and the encoding preserves the value. -/
theorem C8_sign_byte (x : Nat) (hx : 0 < x) :
    int2bin x true =
      (if 128 ≤ (natDigits x).headD 0 then 0 :: natDigits x
       else natDigits x) ∧
    bin2int (int2bin x true) = x := by
  constructor
  · rw [int2bin_true_eq x (by omega)]
  · exact bin2int_int2bin x

/-- Witness for C8 at the spec's example 200 (0xC8, top bit set). -/
theorem C8_sign_byte_witness :
    0 < 200 ∧
    (int2bin 200 true =
      (if 128 ≤ (natDigits 200).headD 0 then 0 :: natDigits 200
       else natDigits 200) ∧
     bin2int (int2bin 200 true) = 200) :=
  ⟨by decide, C8_sign_byte 200 (by decide)⟩

theorem encode_int_1_1 : ASN1.encode (.intN 0 0 2 1 1) = .ok [2, 1, 1] := by
  have h := encode_int_small 0 1 1 (by omega) (by omega) (by omega)
  simpa using h

theorem encode_int_1_2 : ASN1.encode (.intN 0 0 2 1 2) = .ok [2, 1, 2] := by
  have h := encode_int_small 0 1 2 (by omega) (by omega) (by omega)
  simpa using h

theorem encode_ce_inner :
    ASN1.encode (.seqN 0 1 16 3 [.intN 0 0 2 1 1]) = .ok [48, 3, 2, 1, 1] := by
  have h2 : ASN1.encodeList [.intN 0 0 2 1 1] = .ok [2, 1, 1] := by
    simp [ASN1.encodeList, encode_int_1_1]
  have h3 := encode_seq_eq 0 3 [.intN 0 0 2 1 1] [2, 1, 1] (by omega) h2
  rw [h3, encodeLen_short [2, 1, 1] (by simp)]
  norm_num

theorem encode_ce_tree :
    ASN1.encode (.seqN 0 1 16 8
      [.seqN 0 1 16 3 [.intN 0 0 2 1 1], .intN 0 0 2 1 2]) =
      .ok [48, 8, 48, 3, 2, 1, 1, 2, 1, 2] := by
  have h4 : ASN1.encodeList
      [ASN1.seqN 0 1 16 3 [.intN 0 0 2 1 1], .intN 0 0 2 1 2] =
      .ok [48, 3, 2, 1, 1, 2, 1, 2] := by
    simp [ASN1.encodeList, encode_ce_inner, encode_int_1_2]
  have h5 := encode_seq_eq 0 8
    [ASN1.seqN 0 1 16 3 [.intN 0 0 2 1 1], .intN 0 0 2 1 2]
    [48, 3, 2, 1, 1, 2, 1, 2] (by omega) h4
  rw [h5, encodeLen_short [48, 3, 2, 1, 1, 2, 1, 2] (by simp)]
  norm_num

/-- C1 (amended): the DER round-trip law holds for every well-formed tree
of INTEGER/SEQUENCE nodes in which a SEQUENCE child only occurs as the
last child of its parent (and whose encoding stays below the long-form
length limit of `256^127` bytes): decoding the encoding returns a node
structurally equal to the tree (the derived `_len` fields are recomputed),
consumes exactly the buffer, and re-encodes to the identical bytes — which
also gives `encode (decode b) = b` for every buffer `b` in the image of
`encode` on such trees.  For general trees and buffers the law fails (see
the counterexample). -/
theorem C1_roundtrip_amended (t : ASN1) (hwf : ASN1.wfB t = true)
    (htail : ASN1.tailOk t = true) (bs : List Nat)
    (henc : ASN1.encode t = .ok bs) (hB : bs.length < 256 ^ 127) :
    ∃ t' off', ASN1.decode bs 0 = .ok (t', off') ∧ off' = bs.length ∧
      ASN1.structEq t' t = true ∧ ASN1.encode t' = .ok bs := by
  obtain ⟨t', hs, hd, he⟩ := decode_encode_roundtrip t hwf htail bs henc hB
  exact ⟨t', bs.length, hd, rfl, hs, he⟩

/-- Witness for C1 on the flat tree SEQUENCE(INTEGER 1, INTEGER 2). -/
theorem C1_roundtrip_amended_witness :
    (ASN1.wfB (.seqN 0 1 16 0 [.intN 0 0 2 0 1, .intN 0 0 2 0 2]) = true ∧
      ASN1.tailOk (.seqN 0 1 16 0 [.intN 0 0 2 0 1, .intN 0 0 2 0 2]) = true ∧
      ASN1.encode (.seqN 0 1 16 0 [.intN 0 0 2 0 1, .intN 0 0 2 0 2]) =
        .ok [48, 6, 2, 1, 1, 2, 1, 2] ∧
      ([48, 6, 2, 1, 1, 2, 1, 2] : List Nat).length < 256 ^ 127) ∧
    (∃ t' off', ASN1.decode [48, 6, 2, 1, 1, 2, 1, 2] 0 = .ok (t', off') ∧
      off' = ([48, 6, 2, 1, 1, 2, 1, 2] : List Nat).length ∧
      ASN1.structEq t' (.seqN 0 1 16 0 [.intN 0 0 2 0 1, .intN 0 0 2 0 2])
        = true ∧
      ASN1.encode t' = .ok [48, 6, 2, 1, 1, 2, 1, 2]) := by
  have hw : ASN1.wfB (.seqN 0 1 16 0 [.intN 0 0 2 0 1, .intN 0 0 2 0 2])
      = true := by
    simp [ASN1.wfB, ASN1.wfListB]
  have ht : ASN1.tailOk (.seqN 0 1 16 0 [.intN 0 0 2 0 1, .intN 0 0 2 0 2])
      = true := by
    simp [ASN1.tailOk, ASN1.tailOkList, ASN1.isInt]
  have he1 : ASN1.encode (.intN 0 0 2 0 1) = .ok [2, 1, 1] := by
    have h := encode_int_small 0 0 1 (by omega) (by omega) (by omega)
    simpa using h
  have he2 : ASN1.encode (.intN 0 0 2 0 2) = .ok [2, 1, 2] := by
    have h := encode_int_small 0 0 2 (by omega) (by omega) (by omega)
    simpa using h
  have hel : ASN1.encodeList [ASN1.intN 0 0 2 0 1, .intN 0 0 2 0 2] =
      .ok [2, 1, 1, 2, 1, 2] := by
    simp [ASN1.encodeList, he1, he2]
  have henc : ASN1.encode
      (.seqN 0 1 16 0 [.intN 0 0 2 0 1, .intN 0 0 2 0 2]) =
      .ok [48, 6, 2, 1, 1, 2, 1, 2] := by
    have h5 := encode_seq_eq 0 0 [ASN1.intN 0 0 2 0 1, .intN 0 0 2 0 2]
      [2, 1, 1, 2, 1, 2] (by omega) hel
    rw [h5, encodeLen_short [2, 1, 1, 2, 1, 2] (by simp)]
    norm_num
  have hB : ([48, 6, 2, 1, 1, 2, 1, 2] : List Nat).length < 256 ^ 127 := by
    have h2 := two56_le_pow 127 (by omega)
    have h3 : ([48, 6, 2, 1, 1, 2, 1, 2] : List Nat).length = 8 := by simp
    omega
  exact ⟨⟨hw, ht, henc, hB⟩,
    C1_roundtrip_amended _ hw ht _ henc hB⟩

/-- C1 counterexample.  First half: the tree
SEQ(SEQ(INT 1), INT 2) — a nested SEQUENCE followed by a sibling — encodes
to `[48,8,48,3,2,1,1,2,1,2]`, but decoding that buffer yields
SEQ(SEQ(INT 1, INT 2)): the sibling is swallowed, so the result is not
structurally equal to the original tree.  Second half: the buffer
`[2,2,0,5]` (INTEGER 5 with a redundant leading zero byte) is accepted by
`decode`, but re-encoding produces the minimal `[2,1,5] ≠ [2,2,0,5]`. -/
theorem C1_counterexample :
    ASN1.encode (.seqN 0 1 16 8
        [.seqN 0 1 16 3 [.intN 0 0 2 1 1], .intN 0 0 2 1 2]) =
      .ok [48, 8, 48, 3, 2, 1, 1, 2, 1, 2] ∧
    ASN1.decode [48, 8, 48, 3, 2, 1, 1, 2, 1, 2] 0 =
      .ok (.seqN 0 1 16 8
        [.seqN 0 1 16 3 [.intN 0 0 2 1 1, .intN 0 0 2 1 2]], 10) ∧
    ASN1.structEq
      (.seqN 0 1 16 8 [.seqN 0 1 16 3 [.intN 0 0 2 1 1, .intN 0 0 2 1 2]])
      (.seqN 0 1 16 8 [.seqN 0 1 16 3 [.intN 0 0 2 1 1], .intN 0 0 2 1 2])
      = false ∧
    ASN1.decode [2, 2, 0, 5] 0 = .ok (.intN 0 0 2 2 5, 4) ∧
    ASN1.encode (.intN 0 0 2 2 5) = .ok [2, 1, 5] ∧
    ([2, 1, 5] : List Nat) ≠ [2, 2, 0, 5] := by
  refine ⟨encode_ce_tree, rfl, ?_, rfl, ?_, by decide⟩
  · simp [ASN1.structEq, ASN1.structEqList]
  · have h := encode_int_small 0 2 5 (by omega) (by omega) (by omega)
    simpa using h

/-- C5: the RSA primitive's block contract.  In the encryption direction
(`d` absent) the output block is exactly `bits/8` bytes and the input
capacity is `bits/8 - 1`; with `d` present (non-zero, as Python's
truthiness test reads it) the two swap and the exponent becomes `d`.  A
chunk within capacity produces the big-endian encoding of
`m ^ exp mod n`, left-padded with zeros to exactly the output size; a
longer chunk fails with `BlockTooLargeError`. -/
theorem C5_rsa_block_contract (data : List Nat) (n e dv bits : Nat)
    (hdv : dv ≠ 0) (hne : data ≠ []) :
    ((data.length ≤ bits / 8 - 1 →
        ∃ out, rsa data n e none bits = .ok out ∧ out.length = bits / 8 ∧
          (beVal data ^ e % n < 256 ^ (bits / 8) →
            bin2int out = beVal data ^ e % n)) ∧
      (bits / 8 - 1 < data.length →
        rsa data n e none bits = .error .blockTooLarge)) ∧
    ((data.length ≤ bits / 8 →
        ∃ out, rsa data n e (some dv) bits = .ok out ∧
          out.length = bits / 8 - 1 ∧
          (beVal data ^ dv % n < 256 ^ (bits / 8 - 1) →
            bin2int out = beVal data ^ dv % n)) ∧
      (bits / 8 < data.length →
        rsa data n e (some dv) bits = .error .blockTooLarge)) := by
  refine ⟨⟨?_, ?_⟩, ?_, ?_⟩
  · intro hlen
    refine ⟨toBytesBE (bits / 8) (beVal data ^ e % n),
      rsa_none_ok data n e bits hne hlen, toBytesBE_length _ _, ?_⟩
    intro hfit
    rw [toBytesBE_val, Nat.mod_eq_of_lt hfit]
  · intro hlen
    exact rsa_none_err data n e bits hne hlen
  · intro hlen
    refine ⟨toBytesBE (bits / 8 - 1) (beVal data ^ dv % n),
      rsa_some_ok data n e dv bits hdv hne hlen, toBytesBE_length _ _, ?_⟩
    intro hfit
    rw [toBytesBE_val, Nat.mod_eq_of_lt hfit]
  · intro hlen
    exact rsa_some_err data n e dv bits hdv hne hlen

/-- Witness for C5 at the small key n=55, e=3, d=7, bits=16. -/
theorem C5_rsa_block_contract_witness :
    ((7 : Nat) ≠ 0 ∧ ([2] : List Nat) ≠ []) ∧
    ((([2] : List Nat).length ≤ 16 / 8 - 1 →
        ∃ out, rsa [2] 55 3 none 16 = .ok out ∧ out.length = 16 / 8 ∧
          (beVal [2] ^ 3 % 55 < 256 ^ (16 / 8) →
            bin2int out = beVal [2] ^ 3 % 55)) ∧
      (16 / 8 - 1 < ([2] : List Nat).length →
        rsa [2] 55 3 none 16 = .error .blockTooLarge)) ∧
    ((([2] : List Nat).length ≤ 16 / 8 →
        ∃ out, rsa [2] 55 3 (some 7) 16 = .ok out ∧
          out.length = 16 / 8 - 1 ∧
          (beVal [2] ^ 7 % 55 < 256 ^ (16 / 8 - 1) →
            bin2int out = beVal [2] ^ 7 % 55)) ∧
      (16 / 8 < ([2] : List Nat).length →
        rsa [2] 55 3 (some 7) 16 = .error .blockTooLarge)) :=
  ⟨⟨by decide, by decide⟩,
   C5_rsa_block_contract [2] 55 3 7 16 (by decide) (by decide)⟩

/-- C7 counterexample: at the empty plaintext (with the spec's own key
"666f6f", non-empty, even-length and hexadecimal) the generator's first
`next()` raises `StopIteration` instead of yielding a chunk, so the
double transform cannot recover the plaintext there: the claim's "for
every plaintext byte string" fails at `""`. -/
theorem C7_counterexample :
    (("666f6f" : String) ≠ "" ∧ ("666f6f" : String).length % 2 = 0 ∧
      ("666f6f" : String).data.all isHexChar = true) ∧
    arc4 [] "666f6f" = .error .stopIteration ∧
    ¬ ∃ mid, arc4 [] "666f6f" = .ok mid ∧ arc4 mid "666f6f" = .ok [] := by
  refine ⟨⟨by decide, by decide, by decide⟩, rfl, ?_⟩
  rintro ⟨mid, h1, h2⟩
  simp [arc4] at h1

/-- C7 (amended): for every NON-EMPTY plaintext and every non-empty
even-length hexadecimal key, transforming with one freshly keyed engine
yields a chunk, and transforming that chunk with a second, independently
initialised engine under the same key recovers the plaintext (the empty
plaintext instead raises `StopIteration` on the generator's first
`next()`). -/
theorem C7_rc4_symmetry_amended (data : List Nat) (key : String)
    (hdata : data ≠ []) (hne : key ≠ "") (heven : key.length % 2 = 0)
    (hhex : key.data.all isHexChar = true) :
    ∃ mid, arc4 data key = .ok mid ∧ arc4 mid key = .ok data := by
  have hie : data.isEmpty = false := by
    cases data with
    | nil => exact absurd rfl hdata
    | cons c r => rfl
  have hmie : (prga (ksa (rc4key key)) 0 0 data).isEmpty = false := by
    cases data with
    | nil => exact absurd rfl hdata
    | cons c r => rfl
  refine ⟨prga (ksa (rc4key key)) 0 0 data, ?_, ?_⟩
  · unfold arc4
    rw [hie]
    simp
  · unfold arc4
    rw [hmie]
    simp only [Bool.false_eq_true, if_false]
    exact congrArg Except.ok (prga_prga data (ksa (rc4key key)) 0 0)

/-- Witness for the amended C7 at the spec's key "666f6f" and plaintext
"kundan". -/
theorem C7_rc4_symmetry_amended_witness :
    (([107, 117, 110, 100, 97, 110] : List Nat) ≠ [] ∧
      ("666f6f" : String) ≠ "" ∧ ("666f6f" : String).length % 2 = 0 ∧
      ("666f6f" : String).data.all isHexChar = true) ∧
    ∃ mid, arc4 [107, 117, 110, 100, 97, 110] "666f6f" = .ok mid ∧
      arc4 mid "666f6f" = .ok [107, 117, 110, 100, 97, 110] :=
  ⟨⟨by decide, by decide, by decide, by decide⟩,
   C7_rc4_symmetry_amended [107, 117, 110, 100, 97, 110] "666f6f"
     (by decide) (by decide) (by decide) (by decide)⟩

/-!  ## C6: sign/verify  -/

/-- C6 counterexample: over the genuine key pair `n = 55 = 5 * 11`,
`e = 3`, `d = 7` (so `e * d ≡ 1` mod `lcm(4, 10) = 20`), the hash `[2]`
signs to `[18]`, yet the materially altered signature `[73] ≠ [18]`
(several bits differ) still verifies as `true`, because
`73 ≡ 18 (mod 55)`: the claim that verification "returns false if ...
the signature is altered by at least one bit" fails. -/
theorem C6_counterexample :
    Nat.Prime 5 ∧ Nat.Prime 11 ∧ (5 : Nat) ≠ 11 ∧
    (⟨55, 3, 7, 8, none⟩ : PrivateKey).n = 5 * 11 ∧
    3 * 7 ≡ 1 [MOD Nat.lcm (5 - 1) (11 - 1)] ∧
    sign ⟨55, 3, 7, 8, none⟩ [2] = .ok [18] ∧
    ([73] : List Nat) ≠ [18] ∧
    verify ⟨55, 3, 8, none⟩ [2] [73] = .ok true :=
  ⟨by decide, by decide, by decide, rfl, by decide, rfl, by decide, rfl⟩

/-- C6 (amended): for a genuine RSA key pair (`n = p * q` with distinct
primes, `e * d ≡ 1` mod `lcm(p-1, q-1)`) and a hash whose length fits the
block capacity at `bits = _bits + 8` and whose value is reduced mod `n`,
`sign` (the primitive with `exp = d`) succeeds, the true signature
verifies (`verify` runs the primitive with `exp = e`), any same-length
byte-string differing from the hash is rejected, and an altered signature
is rejected exactly when its value is NOT congruent to the true
signature's mod `n` (congruent forgeries such as `sig + n` pass, so the
claim's "altered by at least one bit" is amended to "altered to a
non-congruent value"). -/
theorem C6_sign_verify_amended (p q : Nat) (Ks : PrivateKey) (Kp : PublicKey)
    (h : List Nat)
    (hp : Nat.Prime p) (hq : Nat.Prime q) (hpq : p ≠ q)
    (hn : Ks.n = p * q)
    (hed : Ks.e * Ks.d ≡ 1 [MOD Nat.lcm (p - 1) (q - 1)])
    (hKn : Kp.n = Ks.n) (hKe : Kp.e = Ks.e) (hKb : Kp.bits = Ks.bits)
    (hne : h ≠ []) (hbytes : ∀ x ∈ h, x < 256)
    (hlen : h.length ≤ (Ks.bits + 8) / 8)
    (hm : bin2int h < Ks.n)
    (hfit : Ks.n ≤ 256 ^ ((Ks.bits + 8) / 8 - 1)) :
    ∃ sig, sign Ks h = .ok sig ∧
      verify Kp h sig = .ok true ∧
      (∀ h2, h2.length = h.length → (∀ x ∈ h2, x < 256) → h2 ≠ h →
        verify Kp h2 sig = .ok false) ∧
      (∀ sig2, sig2 ≠ [] → sig2.length ≤ (Ks.bits + 8) / 8 - 1 →
        ¬ bin2int sig2 ≡ bin2int sig [MOD Ks.n] →
        verify Kp h sig2 = .ok false) := by
  have hp2 := hp.two_le
  have hq2 := hq.two_le
  have hn2 : 2 ≤ Ks.n := by
    have h4 : 2 * 2 ≤ p * q := Nat.mul_le_mul hp2 hq2
    rw [hn]
    omega
  have hd0 : Ks.d ≠ 0 := by
    intro hc
    have h1 := ed_ge_one p q Ks.e Ks.d hp hq hpq hed
    rw [hc] at h1
    simp at h1
  have hos : 1 ≤ (Ks.bits + 8) / 8 - 1 := by
    by_contra hc
    have h0 : (Ks.bits + 8) / 8 - 1 = 0 := by omega
    rw [h0, pow_zero] at hfit
    omega
  have hsig0 : sign Ks h = .ok (toBytesBE ((Ks.bits + 8) / 8 - 1)
      (beVal h ^ Ks.d % Ks.n)) := by
    unfold sign
    exact rsa_some_ok h Ks.n 0x10001 Ks.d (Ks.bits + 8) hd0 hne hlen
  have hbe : beVal h = bin2int h := beVal_eq_bin2int h
  have hclt : beVal h ^ Ks.d % Ks.n < Ks.n := Nat.mod_lt _ (by omega)
  have hsiglen : (toBytesBE ((Ks.bits + 8) / 8 - 1)
      (beVal h ^ Ks.d % Ks.n)).length = (Ks.bits + 8) / 8 - 1 :=
    toBytesBE_length _ _
  have hsigne : toBytesBE ((Ks.bits + 8) / 8 - 1)
      (beVal h ^ Ks.d % Ks.n) ≠ [] := by
    intro hcon
    rw [hcon] at hsiglen
    simp at hsiglen
    omega
  have hsigval : bin2int (toBytesBE ((Ks.bits + 8) / 8 - 1)
      (beVal h ^ Ks.d % Ks.n)) = beVal h ^ Ks.d % Ks.n := by
    rw [toBytesBE_val]
    exact Nat.mod_eq_of_lt (lt_of_lt_of_le hclt hfit)
  have hkey : ∀ w : Nat, w < Ks.n → (w ^ Ks.d % Ks.n) ^ Ks.e % Ks.n = w := by
    intro w hw
    have h1 : (w ^ Ks.d % Ks.n) ^ Ks.e ≡ (w ^ Ks.d) ^ Ks.e [MOD Ks.n] :=
      (Nat.mod_modEq (w ^ Ks.d) Ks.n).pow Ks.e
    have h2 : (w ^ Ks.d) ^ Ks.e = w ^ (Ks.e * Ks.d) := by
      rw [← pow_mul, Nat.mul_comm]
    have h3 : w ^ (Ks.e * Ks.d) ≡ w [MOD Ks.n] := by
      rw [hn]
      exact rsa_core p q Ks.e Ks.d w hp hq hpq hed
    have h4 : (w ^ Ks.d % Ks.n) ^ Ks.e ≡ w [MOD Ks.n] := by
      rw [h2] at h1
      exact h1.trans h3
    have h5 : (w ^ Ks.d % Ks.n) ^ Ks.e % Ks.n = w % Ks.n := h4
    rw [h5]
    exact Nat.mod_eq_of_lt hw
  have hcm : (bin2int h ^ Ks.d % Ks.n) ^ Ks.e % Ks.n = bin2int h :=
    hkey (bin2int h) hm
  have hverify : ∀ hh s : List Nat, s ≠ [] →
      s.length ≤ (Ks.bits + 8) / 8 - 1 →
      verify Kp hh s = .ok ((bin2int s ^ Ks.e % Ks.n) == bin2int hh) := by
    intro hh s hsne hslen
    unfold verify
    rw [hKn, hKe, hKb,
      rsa_none_ok s Ks.n Ks.e (Ks.bits + 8) hsne (by omega)]
    dsimp only
    have hout : bin2int (toBytesBE ((Ks.bits + 8) / 8)
        (beVal s ^ Ks.e % Ks.n)) = bin2int s ^ Ks.e % Ks.n := by
      rw [toBytesBE_val, beVal_eq_bin2int]
      apply Nat.mod_eq_of_lt
      have hlt : bin2int s ^ Ks.e % Ks.n < Ks.n := Nat.mod_lt _ (by omega)
      have hmono : (256 : Nat) ^ ((Ks.bits + 8) / 8 - 1) ≤
          256 ^ ((Ks.bits + 8) / 8) :=
        Nat.pow_le_pow_right (by omega) (by omega)
      omega
    rw [hout]
  refine ⟨toBytesBE ((Ks.bits + 8) / 8 - 1) (beVal h ^ Ks.d % Ks.n),
    hsig0, ?_, ?_, ?_⟩
  · rw [hverify h _ hsigne (by omega)]
    rw [hsigval, hbe, hcm]
    simp
  · intro h2 hlen2 hb2 hne2
    rw [hverify h2 _ hsigne (by omega)]
    rw [hsigval, hbe, hcm]
    have hd : ((bin2int h : Nat) == bin2int h2) = false := by
      apply beq_eq_false_iff_ne.mpr
      intro hcon
      exact hne2 (bin2int_inj h2 h hlen2 hb2 hbytes hcon.symm)
    rw [hd]
  · intro sig2 hs2ne hs2len hs2mod
    rw [hverify h sig2 hs2ne hs2len]
    have hd : ((bin2int sig2 ^ Ks.e % Ks.n : Nat) == bin2int h) = false := by
      apply beq_eq_false_iff_ne.mpr
      intro hcon
      apply hs2mod
      rw [hsigval]
      have he1 : bin2int sig2 ^ Ks.e % Ks.n =
          (beVal h ^ Ks.d % Ks.n) ^ Ks.e % Ks.n := by
        rw [hbe, hcm]
        exact hcon
      have he2 : bin2int sig2 ^ Ks.e ≡
          (beVal h ^ Ks.d % Ks.n) ^ Ks.e [MOD Ks.n] := he1
      rw [hn] at he2 ⊢
      exact rsa_pow_inj p q Ks.e Ks.d _ _ hp hq hpq hed he2
    rw [hd]

/-- C6 witness: the amended theorem instantiated on the key pair
`p = 5, q = 11, n = 55, e = 3, d = 7, _bits = 8` and the hash `[2]`. -/
theorem C6_sign_verify_amended_witness :
    Nat.Prime 5 ∧ Nat.Prime 11 ∧ (5 : Nat) ≠ 11 ∧
    3 * 7 ≡ 1 [MOD Nat.lcm (5 - 1) (11 - 1)] ∧
    ∃ sig, sign ⟨55, 3, 7, 8, none⟩ [2] = .ok sig ∧
      verify ⟨55, 3, 8, none⟩ [2] sig = .ok true ∧
      (∀ h2, h2.length = ([2] : List Nat).length → (∀ x ∈ h2, x < 256) →
        h2 ≠ [2] → verify ⟨55, 3, 8, none⟩ h2 sig = .ok false) ∧
      (∀ sig2, sig2 ≠ [] → sig2.length ≤ (8 + 8) / 8 - 1 →
        ¬ bin2int sig2 ≡ bin2int sig [MOD 55] →
        verify ⟨55, 3, 8, none⟩ [2] sig2 = .ok false) :=
  ⟨by decide, by decide, by decide, by decide,
   C6_sign_verify_amended 5 11 ⟨55, 3, 7, 8, none⟩ ⟨55, 3, 8, none⟩ [2]
     (by decide) (by decide) (by decide) rfl (by decide) rfl rfl rfl
     (by decide) (by decide) (by decide) (by decide) (by decide)⟩

/-!  ## C9: public-key extraction  -/

/-- C9: when the private key's DER dump decodes to a SEQUENCE whose first
three children are INTEGERs holding version, `n` and `e` (values below
`256 ^ 126`), `extractPublicKey` copies `n`, `e` and `_bits` and stores the
tree truncated to its first three children with `_len = 3`; encoding that
backing tree and decoding it again yields a SEQUENCE with exactly three
INTEGER children carrying version, `n` and `e`. -/
theorem C9_extract_public (Ks : PrivateKey) (bytes : List Nat)
    (c L k l0 l1 l2 v0 : Nat) (rest : List ASN1)
    (hdata : Ks.derBytes = some bytes)
    (hdec : ASN1.decode bytes 0 = .ok (.seqN c 1 16 L
      (.intN 0 0 2 l0 v0 :: .intN 0 0 2 l1 Ks.n :: .intN 0 0 2 l2 Ks.e ::
        rest), k))
    (hc : c < 4)
    (hv0 : v0 < 256 ^ 126) (hvn : Ks.n < 256 ^ 126)
    (hve : Ks.e < 256 ^ 126) :
    ∃ Kp : PublicKey, extractPublicKey Ks = .ok Kp ∧
      Kp.n = Ks.n ∧ Kp.e = Ks.e ∧ Kp.bits = Ks.bits ∧
      ∃ tr bs t2 L2 l02 l12 l22, Kp.data = some tr ∧
        ASN1.encode tr = .ok bs ∧
        ASN1.decode bs 0 = .ok (t2, bs.length) ∧
        t2 = .seqN c 1 16 L2
          [.intN 0 0 2 l02 v0, .intN 0 0 2 l12 Ks.n,
           .intN 0 0 2 l22 Ks.e] := by
  have htake : (ASN1.intN 0 0 2 l0 v0 :: .intN 0 0 2 l1 Ks.n ::
      .intN 0 0 2 l2 Ks.e :: rest).take 3 =
      [ASN1.intN 0 0 2 l0 v0, .intN 0 0 2 l1 Ks.n,
       .intN 0 0 2 l2 Ks.e] := rfl
  have hKp : extractPublicKey Ks = .ok ⟨Ks.n, Ks.e, Ks.bits,
      some (.seqN c 1 16 3 [ASN1.intN 0 0 2 l0 v0, .intN 0 0 2 l1 Ks.n,
        .intN 0 0 2 l2 Ks.e])⟩ := by
    unfold extractPublicKey
    rw [hdata]
    dsimp only
    rw [hdec]
    dsimp only
    rw [htake]
  have hchild : ∀ ll vv : Nat, vv < 256 ^ 126 →
      ∃ ev, ASN1.encode (.intN 0 0 2 ll vv) = .ok ev ∧ ev.length ≤ 256 := by
    intro ll vv hvv
    refine ⟨_, encode_int_eq 0 ll vv (by omega), ?_⟩
    have h1 : (int2bin vv true).length ≤ 127 := by
      have h2 := int2bin_len_le vv
      have h3 := natDigits_len_le 126 vv hvv
      omega
    have h4 := encodeLen_len_le (int2bin vv true)
    simp only [List.length_cons, List.length_append]
    omega
  obtain ⟨e0, he0, hl0⟩ := hchild l0 v0 hv0
  obtain ⟨e1, he1, hl1⟩ := hchild l1 Ks.n hvn
  obtain ⟨e2, he2, hl2⟩ := hchild l2 Ks.e hve
  have hel : ASN1.encodeList [ASN1.intN 0 0 2 l0 v0, .intN 0 0 2 l1 Ks.n,
      .intN 0 0 2 l2 Ks.e] = .ok (e0 ++ (e1 ++ (e2 ++ []))) := by
    rw [ASN1.encodeList, he0]
    dsimp only
    rw [ASN1.encodeList, he1]
    dsimp only
    rw [ASN1.encodeList, he2]
    dsimp only
    rw [ASN1.encodeList]
  have henctr : ASN1.encode (.seqN c 1 16 3 [ASN1.intN 0 0 2 l0 v0,
      .intN 0 0 2 l1 Ks.n, .intN 0 0 2 l2 Ks.e]) =
      .ok ((64 * c + 48) :: (ASN1.encodeLen (e0 ++ (e1 ++ (e2 ++ []))) ++
        (e0 ++ (e1 ++ (e2 ++ []))))) :=
    encode_seq_eq c 3 _ _ hc hel
  have hbs_len : ((64 * c + 48) ::
      (ASN1.encodeLen (e0 ++ (e1 ++ (e2 ++ []))) ++
        (e0 ++ (e1 ++ (e2 ++ []))))).length < 256 ^ 127 := by
    have h1 := encodeLen_len_le (e0 ++ (e1 ++ (e2 ++ [])))
    have h2 : (65536 : Nat) ≤ 256 ^ 127 := by
      calc (65536 : Nat) = 256 ^ 2 := by norm_num
        _ ≤ 256 ^ 127 := Nat.pow_le_pow_right (by omega) (by omega)
    simp only [List.length_cons, List.length_append, List.length_nil] at h1 ⊢
    omega
  have hwf : ASN1.wfB (.seqN c 1 16 3 [ASN1.intN 0 0 2 l0 v0,
      .intN 0 0 2 l1 Ks.n, .intN 0 0 2 l2 Ks.e]) = true := by
    simp [ASN1.wfB, ASN1.wfListB, hc]
  have htail : ASN1.tailOk (.seqN c 1 16 3 [ASN1.intN 0 0 2 l0 v0,
      .intN 0 0 2 l1 Ks.n, .intN 0 0 2 l2 Ks.e]) = true := by
    simp [ASN1.tailOk, ASN1.tailOkList, ASN1.isInt]
  obtain ⟨t2, hs, hdec2, he2'⟩ := decode_encode_roundtrip
    (.seqN c 1 16 3 [ASN1.intN 0 0 2 l0 v0, .intN 0 0 2 l1 Ks.n,
      .intN 0 0 2 l2 Ks.e]) hwf htail _ henctr hbs_len
  obtain ⟨L2, cs2, rfl, hscs⟩ := structEq_seq_inv hs
  obtain ⟨y0, ys0, rfl, hsy0, hr0⟩ := structEqList_cons_inv hscs
  obtain ⟨y1, ys1, rfl, hsy1, hr1⟩ := structEqList_cons_inv hr0
  obtain ⟨y2, ys2, rfl, hsy2, hr2⟩ := structEqList_cons_inv hr1
  have hnil := structEqList_nil_inv hr2
  subst hnil
  obtain ⟨l02, rfl⟩ := structEq_int_inv hsy0
  obtain ⟨l12, rfl⟩ := structEq_int_inv hsy1
  obtain ⟨l22, rfl⟩ := structEq_int_inv hsy2
  exact ⟨_, hKp, rfl, rfl, rfl, _, _, _, L2, l02, l12, l22, rfl, henctr,
    hdec2, rfl⟩

/-- C9 witness: extraction on a key whose 29-byte DER dump decodes to a
nine-child RSA private-key SEQUENCE with `n = 55`, `e = 3`. -/
theorem C9_extract_public_witness :
    (⟨55, 3, 7, 8, some [48, 27, 2, 1, 0, 2, 1, 55, 2, 1, 3, 2, 1, 7, 2, 1,
        5, 2, 1, 11, 2, 1, 3, 2, 1, 3, 2, 1, 9]⟩ : PrivateKey).derBytes =
      some [48, 27, 2, 1, 0, 2, 1, 55, 2, 1, 3, 2, 1, 7, 2, 1, 5, 2, 1, 11,
        2, 1, 3, 2, 1, 3, 2, 1, 9] ∧
    ASN1.decode [48, 27, 2, 1, 0, 2, 1, 55, 2, 1, 3, 2, 1, 7, 2, 1, 5, 2, 1,
        11, 2, 1, 3, 2, 1, 3, 2, 1, 9] 0 =
      .ok (.seqN 0 1 16 27
        (.intN 0 0 2 1 0 :: .intN 0 0 2 1 55 :: .intN 0 0 2 1 3 ::
          [.intN 0 0 2 1 7, .intN 0 0 2 1 5, .intN 0 0 2 1 11,
           .intN 0 0 2 1 3, .intN 0 0 2 1 3, .intN 0 0 2 1 9]), 29) ∧
    ∃ Kp : PublicKey,
      extractPublicKey ⟨55, 3, 7, 8, some [48, 27, 2, 1, 0, 2, 1, 55, 2, 1,
        3, 2, 1, 7, 2, 1, 5, 2, 1, 11, 2, 1, 3, 2, 1, 3, 2, 1, 9]⟩ =
        .ok Kp ∧
      Kp.n = 55 ∧ Kp.e = 3 ∧ Kp.bits = 8 ∧
      ∃ tr bs t2 L2 l02 l12 l22, Kp.data = some tr ∧
        ASN1.encode tr = .ok bs ∧
        ASN1.decode bs 0 = .ok (t2, bs.length) ∧
        t2 = .seqN 0 1 16 L2
          [.intN 0 0 2 l02 0, .intN 0 0 2 l12 55, .intN 0 0 2 l22 3] :=
  ⟨rfl, rfl,
   C9_extract_public
     ⟨55, 3, 7, 8, some [48, 27, 2, 1, 0, 2, 1, 55, 2, 1, 3, 2, 1, 7, 2, 1,
       5, 2, 1, 11, 2, 1, 3, 2, 1, 3, 2, 1, 9]⟩
     [48, 27, 2, 1, 0, 2, 1, 55, 2, 1, 3, 2, 1, 7, 2, 1, 5, 2, 1, 11, 2, 1,
       3, 2, 1, 3, 2, 1, 9]
     0 27 29 1 1 1 0
     [.intN 0 0 2 1 7, .intN 0 0 2 1 5, .intN 0 0 2 1 11, .intN 0 0 2 1 3,
      .intN 0 0 2 1 3, .intN 0 0 2 1 9]
     rfl rfl (by decide) (by decide) (by decide) (by decide)⟩
